import Mathlib

/-!
Shallow embedding of the pattern-matching and transformation engine of the
data-redact DLP tool (src/main.go) and proofs about its specification claims.

Documents are modelled as `List Char` (one entry per byte of the ASCII text;
Go regexp operates on bytes, and all character classes involved — the word
class of the ASCII word boundary, the Perl classes, the case folding of the
pattern literals — are modelled at ASCII level, matching the behaviour of the
Go regexp package on ASCII input).

The Go regexp package uses leftmost-first (Perl-preference) match semantics:
the match begins as early as possible and, among matches at that position, is
the one a backtracking search would find first.  The matchers below implement
exactly that search for the concrete regexes of the source:

  line 21:  piiRegex   (detector)
  line 23:  spiiRegex  (detector)
  line 86:  tokenize   uses  a word-run pattern (backslash-b, word chars, backslash-b)
  line 94:  detokenize uses the quoted token bounded by word boundaries
  lines 102-103: the two narrower regexes of redact

`ReplaceAll`/`FindAll` scan left to right, at each position trying the match,
and on success continue after the matched text; this is the `replaceAllF` /
`countAllF` recursion (structural on a fuel initialised to the length of the
input, which the scan can never exhaust since every step consumes at least
one character).
-/

/-- ASCII word character, the `w` class of Go regexp: `[0-9A-Za-z_]`. -/
def isWordChar (c : Char) : Bool :=
  (48 ≤ c.toNat && c.toNat ≤ 57) || (65 ≤ c.toNat && c.toNat ≤ 90) ||
    (97 ≤ c.toNat && c.toNat ≤ 122) || c.toNat == 95

/-- ASCII letter: the class `[a-z]` of the qualifier under the `(?i)` flag. -/
def isAsciiLetter (c : Char) : Bool :=
  (65 ≤ c.toNat && c.toNat ≤ 90) || (97 ≤ c.toNat && c.toNat ≤ 122)

def isUpperAlpha (c : Char) : Bool := 65 ≤ c.toNat && c.toNat ≤ 90

/-- The Perl class `s` of Go regexp: `[TAB LF FF CR SPACE]`. -/
def isRegexSpace (c : Char) : Bool :=
  c.toNat == 9 || c.toNat == 10 || c.toNat == 12 || c.toNat == 13 || c.toNat == 32

/-- Unicode white space, the set trimmed by Go strings.TrimSpace
(unicode.IsSpace). -/
def isGoSpace (c : Char) : Bool :=
  (9 ≤ c.toNat && c.toNat ≤ 13) || c.toNat == 32 || c.toNat == 133 ||
    c.toNat == 160 || c.toNat == 5760 || (8192 ≤ c.toNat && c.toNat ≤ 8202) ||
    c.toNat == 8232 || c.toNat == 8233 || c.toNat == 8239 || c.toNat == 8287 ||
    c.toNat == 12288

/-- Case-insensitive character match of a pattern character `p` against a text
character `c` under the `(?i)` flag (ASCII case folding). -/
def ciEq (p c : Char) : Bool :=
  p == c || (isUpperAlpha p && c.toNat == p.toNat + 32) ||
    (isUpperAlpha c && p.toNat == c.toNat + 32)

/-- Case-insensitive literal match of the pattern `p` against a prefix of the
text `s`. -/
def ciPref : List Char → List Char → Bool
  | [], _ => true
  | _ :: _, [] => false
  | p :: ps, c :: cs => ciEq p c && ciPref ps cs

/-- Word-ness of an optional character; `none` (start or end of the input)
counts as a non-word position for the ASCII word boundary. -/
def wordOpt : Option Char → Bool
  | none => false
  | some c => isWordChar c

/-- ASCII word boundary between two adjacent (optional) characters. -/
def boundaryB (a b : Option Char) : Bool := wordOpt a != wordOpt b

def headIsWord : List Char → Bool
  | [] => false
  | c :: _ => isWordChar c

/-- Backtracking alternation of literal phrases, each followed by a word
boundary: `(?:LIT1|LIT2|...)` followed by the closing boundary of the regex.
Alternatives are tried in order; an alternative fails if its literal does not
match case-insensitively or the boundary after it does not hold. -/
def tryLits : List (List Char) → List Char → Option Nat
  | [], _ => none
  | k :: ks, s =>
    if ciPref k s && boundaryB ((s.take k.length).getLast?) ((s.drop k.length).head?) then
      some k.length
    else tryLits ks s

/-- Backtracking match of `(?:H1|...|Hm) s? (?:T1|...|Tn)` followed by a word
boundary: a head literal, an optional (greedy) single whitespace, a tail
literal.  The greedy `s?` first tries to consume a whitespace character and
falls back to the empty match, exactly as a backtracking search would. -/
def tryHeads : List (List Char) → List (List Char) → List Char → Option Nat
  | [], _, _ => none
  | h :: hs, tails, s =>
    if ciPref h s then
      match (match s.drop h.length with
             | c :: rest =>
               if isRegexSpace c then (tryLits tails rest).map (fun m => h.length + 1 + m)
               else none
             | [] => none) with
      | some r => some r
      | none =>
        match tryLits tails (s.drop h.length) with
        | some m => some (h.length + m)
        | none => tryHeads hs tails s
    else tryHeads hs tails s

/-- Wrap a pattern body with the leading word boundary and the optional greedy
one-word qualifier `(?:[a-z]+\s)?` of the source regexes.  `prev` is the
word-ness of the character just before the current position (false at the
start of the input).  The boundary holds iff `prev` differs from the word-ness
of the head of `s`.  The greedy `+` of `[a-z]+` can only take the whole
maximal letter run, since a shorter run is followed by a letter, which the
following `\s` rejects; if the qualifier path fails, the search backtracks to
the qualifier-less body at the same position. -/
def tryQual (body : List Char → Option Nat) (prev : Bool) (s : List Char) : Option Nat :=
  if prev == headIsWord s then none
  else
    match (match s.takeWhile isAsciiLetter with
           | [] => none
           | run =>
             match s.drop run.length with
             | c :: rest =>
               if isRegexSpace c then (body rest).map (fun m => run.length + 1 + m)
               else none
             | [] => none) with
    | some r => some r
    | none => body s

/-- Apostrophe character (code point 39), used by the pattern literal
`drivers license` of the source, written here without a quote character. -/
def apos : Char := Char.ofNat 39

/-- The closed PII vocabulary of the first alternative of `piiRegex` (line 21)
and of the local PII regex of `redact` (line 102). -/
def piiLits : List (List Char) :=
  ["SSN".toList, "social security number".toList,
   "driver".toList ++ apos :: "s license".toList,
   "passport".toList, "credit card".toList, "debit card".toList,
   "bank account".toList]

def nameHeads : List (List Char) :=
  ["first".toList, "last".toList, "middle".toList, "maiden".toList,
   "previous".toList, "current".toList]

def nameTails : List (List Char) := ["name".toList, "initials".toList]

def contactHeads : List (List Char) :=
  ["phone".toList, "fax".toList, "email".toList, "address".toList,
   "city".toList, "state".toList, "zip".toList, "postal".toList]

def contactTails : List (List Char) := ["number".toList, "code".toList]

def spiiHeads : List (List Char) :=
  ["medical".toList, "health".toList, "insurance".toList, "benefits".toList,
   "prescription".toList, "treatment".toList]

def spiiTails : List (List Char) := ["information".toList, "record".toList]

def ethHeads : List (List Char) :=
  ["ethnicity".toList, "race".toList, "sexual".toList, "gender".toList,
   "religion".toList]

def ethTails : List (List Char) := ["identity".toList, "orientation".toList]

/-- Matcher of the local PII regex of `redact` (line 102). -/
def piiTry : Bool → List Char → Option Nat := tryQual (tryLits piiLits)

/-- Matcher of the local SPII regex of `redact` (line 103). -/
def spiiTry : Bool → List Char → Option Nat := tryQual (tryHeads spiiHeads spiiTails)

/-- Matcher of the global detector regex `piiRegex` (line 21): three
alternatives, each with its own boundary and optional qualifier, tried in
leftmost-first order. -/
def piiDetTry (prev : Bool) (s : List Char) : Option Nat :=
  match tryQual (tryLits piiLits) prev s with
  | some n => some n
  | none =>
    match tryQual (tryHeads nameHeads nameTails) prev s with
    | some n => some n
    | none => tryQual (tryHeads contactHeads contactTails) prev s

/-- Matcher of the global detector regex `spiiRegex` (line 23): the
medical-record alternative, then the identity/orientation alternative. -/
def spiiDetTry (prev : Bool) (s : List Char) : Option Nat :=
  match tryQual (tryHeads spiiHeads spiiTails) prev s with
  | some n => some n
  | none => tryQual (tryHeads ethHeads ethTails) prev s

/-- Word-ness of the last character of `l` (`d` if `l` is empty): the `prev`
value carried by the scans below. -/
def lastW : Bool → List Char → Bool
  | d, [] => d
  | _, c :: cs => lastW (isWordChar c) cs

/-- The scan of `Regexp.ReplaceAll`: left to right, at each position try the
matcher; on a match of length `n` emit the replacement and continue right
after the matched text, else copy one character.  Structural on `fuel`; the
callers pass `fuel = s.length`, which can never run out since every step
consumes at least one character of `s` (every match of the matchers above is
nonempty). -/
def replaceAllF (f : Bool → List Char → Option Nat) (repl : List Char) :
    Nat → Bool → List Char → List Char
  | _, _, [] => []
  | 0, _, s => s
  | fuel + 1, prev, c :: cs =>
    match f prev (c :: cs) with
    | some n => repl ++ replaceAllF f repl fuel (lastW prev ((c :: cs).take n)) (cs.drop (n - 1))
    | none => c :: replaceAllF f repl fuel (isWordChar c) cs

def replaceAll (f : Bool → List Char → Option Nat) (repl : List Char)
    (prev : Bool) (s : List Char) : List Char :=
  replaceAllF f repl s.length prev s

/-- The scan of `Regexp.FindAll _ -1`, counting the non-overlapping
leftmost-first matches. -/
def countAllF (f : Bool → List Char → Option Nat) :
    Nat → Bool → List Char → Nat
  | _, _, [] => 0
  | 0, _, _ => 0
  | fuel + 1, prev, c :: cs =>
    match f prev (c :: cs) with
    | some n => countAllF f fuel (lastW prev ((c :: cs).take n)) (cs.drop (n - 1)) + 1
    | none => countAllF f fuel (isWordChar c) cs

def countAll (f : Bool → List Char → Option Nat) (prev : Bool) (s : List Char) : Nat :=
  countAllF f s.length prev s

/-- Matcher of the tokenize regex (line 86): a word boundary, a maximal
nonempty run of word characters, a word boundary.  The boundary before the
match forces `prev` to be non-word, the greedy `w+` takes the whole maximal
run, after which the closing boundary holds automatically. -/
def wordRunTry (prev : Bool) (s : List Char) : Option Nat :=
  match s with
  | [] => none
  | c :: cs =>
    if !prev && isWordChar c then some (1 + (cs.takeWhile isWordChar).length) else none

/-- `tokenize` (lines 85-90): replace every match of the word-run regex with
the token. -/
def tokenize (input : List Char) (token : List Char) : List Char :=
  replaceAll wordRunTry token false input

/-- Matcher of the detokenize regex (line 94): the token, quoted to a literal
by `regexp.QuoteMeta`, bounded by word boundaries.  Matching is exact (no
`(?i)` flag).  An empty token gives the regex of just two boundaries, whose
empty matches are replaced by the empty trim of the empty match, leaving the
input unchanged; it is modelled as the always-failing matcher, which gives
the same output. -/
def detokTry (token : List Char) (prev : Bool) (s : List Char) : Option Nat :=
  match token with
  | [] => none
  | _ :: _ =>
    if token.isPrefixOf s && (prev != headIsWord s) &&
        boundaryB ((s.take token.length).getLast?) ((s.drop token.length).head?) then
      some token.length
    else none

/-- Go strings.TrimSpace on the byte text: drop Unicode white space from both
ends. -/
def trimSpace (l : List Char) : List Char :=
  ((l.dropWhile isGoSpace).reverse.dropWhile isGoSpace).reverse

/-- `detokenize` (lines 93-98): replace every boundary-delimited occurrence of
the token literal with the trimmed match text (the match is the token itself). -/
def detokenize (input : List Char) (token : List Char) : List Char :=
  replaceAll (detokTry token) (trimSpace token) false input

def redactedLit : List Char := "[redacted]".toList

/-- `redact` (lines 101-107): replace every match of the local PII regex with
the literal, then every match of the local SPII regex. -/
def redact (input : List Char) : List Char :=
  replaceAll spiiTry redactedLit false (replaceAll piiTry redactedLit false input)

/-- PII match count of the detector (line 165). -/
def countPII (input : List Char) : Nat := countAll piiDetTry false input

/-- SPII match count of the detector (line 166). -/
def countSPII (input : List Char) : Nat := countAll spiiDetTry false input

/-- The mode dispatch of `processFile` (lines 170-181): the three recognized
modes produce a transformed output, any other mode is an error and the
function returns before any output is produced. -/
def applyMode (mode : String) (token : List Char) (input : List Char) :
    Option (List Char) :=
  match mode with
  | "tokenize" => some (tokenize input token)
  | "detokenize" => some (detokenize input token)
  | "redact" => some (redact input)
  | _ => none

/-- Specification-side definition of tokenize, following the words of the
spec (section 4.2): replace every maximal run of word characters — every
token-able unit — with the literal token string, preserving every non-word
character in place.  Compared against the source-side `tokenize` in the
refinement theorem of claim C5.  Structural on the same length fuel. -/
def tokenizeSpecF (token : List Char) : Nat → List Char → List Char
  | _, [] => []
  | 0, s => s
  | fuel + 1, c :: cs =>
    if isWordChar c then token ++ tokenizeSpecF token fuel (cs.dropWhile isWordChar)
    else c :: tokenizeSpecF token fuel cs

def tokenizeSpec (input : List Char) (token : List Char) : List Char :=
  tokenizeSpecF token input.length input

/-- The piece decomposition of a `ReplaceAll` scan: the same recursion as
`replaceAllF`, but recording, in order, each matched span (left) and each
character the scan passed over unchanged (right). -/
def scanPiecesF (f : Bool → List Char → Option Nat) :
    Nat → Bool → List Char → List (List Char ⊕ Char)
  | _, _, [] => []
  | 0, _, s => s.map Sum.inr
  | fuel + 1, prev, c :: cs =>
    match f prev (c :: cs) with
    | some n =>
      Sum.inl ((c :: cs).take n) ::
        scanPiecesF f fuel (lastW prev ((c :: cs).take n)) (cs.drop (n - 1))
    | none => Sum.inr c :: scanPiecesF f fuel (isWordChar c) cs

def scanPieces (f : Bool → List Char → Option Nat) (prev : Bool) (s : List Char) :
    List (List Char ⊕ Char) :=
  scanPiecesF f s.length prev s

/-- Concatenation of the pieces: recovers the scanned input. -/
def joinPieces (ps : List (List Char ⊕ Char)) : List Char :=
  ps.flatMap (fun p => match p with | Sum.inl l => l | Sum.inr c => [c])

/-- Rendering of the pieces: every matched span becomes the replacement
literal, every passed-over character stays itself — the output of the scan. -/
def renderPieces (repl : List Char) (ps : List (List Char ⊕ Char)) : List Char :=
  ps.flatMap (fun p => match p with | Sum.inl _ => repl | Sum.inr c => [c])

/-! ## Scanner infrastructure: the fuel is irrelevant as long as it is at
least the length of the input, and the scans satisfy the natural unfolding
equations. -/

theorem replaceAllF_fuel (f : Bool → List Char → Option Nat) (repl : List Char) :
    ∀ (fuel fuel' : Nat) (prev : Bool) (s : List Char),
      s.length ≤ fuel → s.length ≤ fuel' →
      replaceAllF f repl fuel prev s = replaceAllF f repl fuel' prev s := by
  intro fuel
  induction fuel with
  | zero =>
    intro fuel' prev s hs _
    have hnil : s = [] := List.length_eq_zero.mp (Nat.le_zero.mp hs)
    subst hnil
    cases fuel' <;> rfl
  | succ fuel ih =>
    intro fuel' prev s hs hs'
    cases s with
    | nil => cases fuel' <;> rfl
    | cons c cs =>
      cases fuel' with
      | zero => simp at hs'
      | succ fuel'' =>
        simp only [List.length_cons] at hs hs'
        simp only [replaceAllF]
        cases h : f prev (c :: cs) with
        | some n =>
          have hd : (cs.drop (n - 1)).length ≤ cs.length := by
            simp [List.length_drop]
          exact congrArg (repl ++ ·)
            (ih fuel'' _ _ (by omega) (by omega))
        | none =>
          exact congrArg (c :: ·) (ih fuel'' _ _ (by omega) (by omega))

theorem replaceAll_nil (f : Bool → List Char → Option Nat) (repl : List Char)
    (prev : Bool) : replaceAll f repl prev [] = [] := rfl

theorem replaceAll_cons_some (f : Bool → List Char → Option Nat) (repl : List Char)
    {prev : Bool} {c : Char} {cs : List Char} {n : Nat}
    (h : f prev (c :: cs) = some n) :
    replaceAll f repl prev (c :: cs) =
      repl ++ replaceAll f repl (lastW prev ((c :: cs).take n)) (cs.drop (n - 1)) := by
  show replaceAllF f repl (cs.length + 1) prev (c :: cs) = _
  simp only [replaceAllF, h]
  exact congrArg (repl ++ ·)
    (replaceAllF_fuel f repl cs.length (cs.drop (n - 1)).length _ _
      (by simp [List.length_drop]) (Nat.le_refl _))

theorem replaceAll_cons_none (f : Bool → List Char → Option Nat) (repl : List Char)
    {prev : Bool} {c : Char} {cs : List Char}
    (h : f prev (c :: cs) = none) :
    replaceAll f repl prev (c :: cs) = c :: replaceAll f repl (isWordChar c) cs := by
  show replaceAllF f repl (cs.length + 1) prev (c :: cs) = _
  simp only [replaceAllF, h]
  rfl

theorem countAllF_fuel (f : Bool → List Char → Option Nat) :
    ∀ (fuel fuel' : Nat) (prev : Bool) (s : List Char),
      s.length ≤ fuel → s.length ≤ fuel' →
      countAllF f fuel prev s = countAllF f fuel' prev s := by
  intro fuel
  induction fuel with
  | zero =>
    intro fuel' prev s hs _
    have hnil : s = [] := List.length_eq_zero.mp (Nat.le_zero.mp hs)
    subst hnil
    cases fuel' <;> rfl
  | succ fuel ih =>
    intro fuel' prev s hs hs'
    cases s with
    | nil => cases fuel' <;> rfl
    | cons c cs =>
      cases fuel' with
      | zero => simp at hs'
      | succ fuel'' =>
        simp only [List.length_cons] at hs hs'
        simp only [countAllF]
        cases h : f prev (c :: cs) with
        | some n =>
          have hd : (cs.drop (n - 1)).length ≤ cs.length := by
            simp [List.length_drop]
          exact congrArg (· + 1) (ih fuel'' _ _ (by omega) (by omega))
        | none =>
          exact ih fuel'' _ _ (by omega) (by omega)

theorem countAll_nil (f : Bool → List Char → Option Nat) (prev : Bool) :
    countAll f prev [] = 0 := rfl

theorem countAll_cons_some (f : Bool → List Char → Option Nat)
    {prev : Bool} {c : Char} {cs : List Char} {n : Nat}
    (h : f prev (c :: cs) = some n) :
    countAll f prev (c :: cs) =
      countAll f (lastW prev ((c :: cs).take n)) (cs.drop (n - 1)) + 1 := by
  show countAllF f (cs.length + 1) prev (c :: cs) = _
  simp only [countAllF, h]
  exact congrArg (· + 1)
    (countAllF_fuel f cs.length (cs.drop (n - 1)).length _ _
      (by simp [List.length_drop]) (Nat.le_refl _))

theorem countAll_cons_none (f : Bool → List Char → Option Nat)
    {prev : Bool} {c : Char} {cs : List Char}
    (h : f prev (c :: cs) = none) :
    countAll f prev (c :: cs) = countAll f (isWordChar c) cs := by
  show countAllF f (cs.length + 1) prev (c :: cs) = _
  simp only [countAllF, h]
  rfl

theorem scanPiecesF_fuel (f : Bool → List Char → Option Nat) :
    ∀ (fuel fuel' : Nat) (prev : Bool) (s : List Char),
      s.length ≤ fuel → s.length ≤ fuel' →
      scanPiecesF f fuel prev s = scanPiecesF f fuel' prev s := by
  intro fuel
  induction fuel with
  | zero =>
    intro fuel' prev s hs _
    have hnil : s = [] := List.length_eq_zero.mp (Nat.le_zero.mp hs)
    subst hnil
    cases fuel' <;> rfl
  | succ fuel ih =>
    intro fuel' prev s hs hs'
    cases s with
    | nil => cases fuel' <;> rfl
    | cons c cs =>
      cases fuel' with
      | zero => simp at hs'
      | succ fuel'' =>
        simp only [List.length_cons] at hs hs'
        simp only [scanPiecesF]
        cases h : f prev (c :: cs) with
        | some n =>
          have hd : (cs.drop (n - 1)).length ≤ cs.length := by
            simp [List.length_drop]
          exact congrArg _ (ih fuel'' _ _ (by omega) (by omega))
        | none =>
          exact congrArg _ (ih fuel'' _ _ (by omega) (by omega))

theorem scanPieces_nil (f : Bool → List Char → Option Nat) (prev : Bool) :
    scanPieces f prev [] = [] := rfl

theorem scanPieces_cons_some (f : Bool → List Char → Option Nat)
    {prev : Bool} {c : Char} {cs : List Char} {n : Nat}
    (h : f prev (c :: cs) = some n) :
    scanPieces f prev (c :: cs) =
      Sum.inl ((c :: cs).take n) ::
        scanPieces f (lastW prev ((c :: cs).take n)) (cs.drop (n - 1)) := by
  show scanPiecesF f (cs.length + 1) prev (c :: cs) = _
  simp only [scanPiecesF, h]
  exact congrArg _
    (scanPiecesF_fuel f cs.length (cs.drop (n - 1)).length _ _
      (by simp [List.length_drop]) (Nat.le_refl _))

theorem scanPieces_cons_none (f : Bool → List Char → Option Nat)
    {prev : Bool} {c : Char} {cs : List Char}
    (h : f prev (c :: cs) = none) :
    scanPieces f prev (c :: cs) = Sum.inr c :: scanPieces f (isWordChar c) cs := by
  show scanPiecesF f (cs.length + 1) prev (c :: cs) = _
  simp only [scanPiecesF, h]
  rfl

/-! ## Character-class, prefix and lastW lemmas -/

theorem letter_isWord {c : Char} (h : isAsciiLetter c = true) : isWordChar c = true := by
  simp only [isAsciiLetter, Bool.or_eq_true, Bool.and_eq_true, decide_eq_true_eq] at h
  simp only [isWordChar, Bool.or_eq_true, Bool.and_eq_true, decide_eq_true_eq, beq_iff_eq]
  omega

theorem not_letter_of_not_word {c : Char} (h : isWordChar c = false) :
    isAsciiLetter c = false := by
  cases hl : isAsciiLetter c
  · rfl
  · rw [letter_isWord hl] at h
    cases h

theorem ciEq_letter {p c : Char} (h : ciEq p c = true) (hp : isAsciiLetter p = true) :
    isAsciiLetter c = true := by
  simp only [ciEq, Bool.or_eq_true, Bool.and_eq_true, beq_iff_eq, isUpperAlpha,
    decide_eq_true_eq] at h
  simp only [isAsciiLetter, Bool.or_eq_true, Bool.and_eq_true, decide_eq_true_eq] at hp ⊢
  rcases h with (h | ⟨h1, h2⟩) | ⟨h1, h2⟩
  · subst h; exact hp
  · omega
  · omega

theorem ciEq_false_of_letter_nonletter {p c : Char} (hp : isAsciiLetter p = true)
    (hc : isAsciiLetter c = false) : ciEq p c = false := by
  cases h : ciEq p c
  · rfl
  · rw [ciEq_letter h hp] at hc
    cases hc

theorem ciEq_wordEq {p c : Char} (h : ciEq p c = true) : isWordChar p = isWordChar c := by
  simp only [ciEq, Bool.or_eq_true, Bool.and_eq_true, beq_iff_eq, isUpperAlpha,
    decide_eq_true_eq] at h
  rcases h with (h | ⟨h1, h2⟩) | ⟨h1, h2⟩
  · subst h; rfl
  · have hp : isWordChar p = true := by
      simp only [isWordChar, Bool.or_eq_true, Bool.and_eq_true, decide_eq_true_eq,
        beq_iff_eq]
      omega
    have hc : isWordChar c = true := by
      simp only [isWordChar, Bool.or_eq_true, Bool.and_eq_true, decide_eq_true_eq,
        beq_iff_eq]
      omega
    rw [hp, hc]
  · have hp : isWordChar p = true := by
      simp only [isWordChar, Bool.or_eq_true, Bool.and_eq_true, decide_eq_true_eq,
        beq_iff_eq]
      omega
    have hc : isWordChar c = true := by
      simp only [isWordChar, Bool.or_eq_true, Bool.and_eq_true, decide_eq_true_eq,
        beq_iff_eq]
      omega
    rw [hp, hc]

theorem ciPref_length {k s : List Char} (h : ciPref k s = true) : k.length ≤ s.length := by
  induction k generalizing s with
  | nil => simp
  | cons p ps ih =>
    cases s with
    | nil => simp [ciPref] at h
    | cons c cs =>
      simp only [ciPref, Bool.and_eq_true] at h
      simpa using ih h.2

theorem ciPref_append (k v w : List Char) :
    ciPref k (v ++ w) = (ciPref (k.take v.length) v && ciPref (k.drop v.length) w) := by
  induction k generalizing v with
  | nil => cases v <;> simp [ciPref]
  | cons p ps ih =>
    cases v with
    | nil => simp [ciPref]
    | cons a v2 =>
      simp only [List.cons_append, ciPref, List.length_cons, List.take_succ_cons,
        List.drop_succ_cons, List.append_eq]
      rw [ih v2, Bool.and_assoc]

theorem lastW_congr {v : List Char} (hv : v ≠ []) (d d' : Bool) :
    lastW d v = lastW d' v := by
  cases v with
  | nil => exact absurd rfl hv
  | cons c cs => rfl

theorem lastW_append (d : Bool) (u v : List Char) (hv : v ≠ []) :
    lastW d (u ++ v) = lastW d v := by
  induction u generalizing d with
  | nil => rfl
  | cons c u2 ih =>
    show lastW (isWordChar c) (u2 ++ v) = lastW d v
    rw [ih (isWordChar c)]
    exact lastW_congr hv _ _

theorem lastW_drop {v : List Char} {n : Nat} (h : v.drop n ≠ []) (d d' : Bool) :
    lastW d (v.drop n) = lastW d' v := by
  conv_rhs => rw [← List.take_append_drop n v]
  rw [lastW_append d' _ _ h]
  exact lastW_congr h d d'

theorem wordOpt_getLast?_eq_lastW {v : List Char} (hv : v ≠ []) (d : Bool) :
    wordOpt v.getLast? = lastW d v := by
  induction v generalizing d with
  | nil => exact absurd rfl hv
  | cons c cs ih =>
    cases cs with
    | nil => rfl
    | cons e es =>
      rw [List.getLast?_cons_cons]
      exact ih (by simp) (isWordChar c)

theorem exists_nonletter_of_lastW {v : List Char} (hv : v ≠ [])
    (h : lastW true v = false) : ∃ x ∈ v, isAsciiLetter x = false := by
  obtain ⟨a, ha⟩ : ∃ a, v.getLast? = some a := by
    cases hl : v.getLast? with
    | none => exact absurd (List.getLast?_eq_none_iff.mp hl) hv
    | some a => exact ⟨a, rfl⟩
  refine ⟨a, List.mem_of_mem_getLast? (by rw [ha]; exact rfl), ?_⟩
  have hw : wordOpt v.getLast? = false := by rw [wordOpt_getLast?_eq_lastW hv true]; exact h
  rw [ha] at hw
  exact not_letter_of_not_word hw

theorem takeWhile_letter_ne_of_lastW {v : List Char} (hv : v ≠ [])
    (h : lastW true v = false) :
    (v.takeWhile isAsciiLetter).length ≠ v.length := by
  intro hlen
  have heq : v.takeWhile isAsciiLetter = v :=
    (List.takeWhile_prefix _).eq_of_length hlen
  have hall := List.takeWhile_eq_self_iff.mp heq
  obtain ⟨x, hx, hxl⟩ := exists_nonletter_of_lastW hv h
  rw [hall x hx] at hxl
  cases hxl

theorem takeWhile_append_stop {p : Char → Bool} {v : List Char} (w : List Char)
    (h : (v.takeWhile p).length ≠ v.length) :
    (v ++ w).takeWhile p = v.takeWhile p := by
  rw [List.takeWhile_append, if_neg h]

/-! ## Literal-list well-formedness and tryLits dissection -/

/-- Well-formedness of the concrete literal lists of the source regexes:
every literal is nonempty, starts and ends with an ASCII letter, and no
character of a literal matches the opening bracket of the replacement
literal case-insensitively. -/
def litsOk (lits : List (List Char)) : Bool :=
  lits.all (fun k =>
    (match k with | [] => false | c :: _ => isAsciiLetter c) &&
    (match k.getLast? with | some c => isAsciiLetter c | none => false) &&
    k.all (fun c => !ciEq c '['))

theorem litsOk_tail {k : List Char} {ks : List (List Char)}
    (h : litsOk (k :: ks) = true) : litsOk ks = true := by
  simp only [litsOk, List.all_cons, Bool.and_eq_true] at h
  exact h.2

theorem litsOk_mem {lits : List (List Char)} (hok : litsOk lits = true)
    {k : List Char} (hmem : k ∈ lits) :
    (∃ c t, k = c :: t ∧ isAsciiLetter c = true) ∧
    (∃ a, k.getLast? = some a ∧ isAsciiLetter a = true) ∧
    (∀ c ∈ k, ciEq c '[' = false) := by
  simp only [litsOk, List.all_eq_true, Bool.and_eq_true, Bool.not_eq_true'] at hok
  obtain ⟨⟨h1, h2⟩, h3⟩ := hok k hmem
  refine ⟨?_, ?_, h3⟩
  · cases k with
    | nil => exact Bool.noConfusion h1
    | cons c t => exact ⟨c, t, rfl, h1⟩
  · cases hl : k.getLast? with
    | none => rw [hl] at h2; exact Bool.noConfusion h2
    | some a => rw [hl] at h2; exact ⟨a, rfl, h2⟩

theorem headIsWord_eq (l : List Char) : headIsWord l = wordOpt l.head? := by
  cases l <;> rfl

theorem ciPref_last_pair :
    ∀ {k s : List Char}, ciPref k s = true → k ≠ [] →
      ∃ a b, k.getLast? = some a ∧ (s.take k.length).getLast? = some b ∧
        ciEq a b = true := by
  intro k
  induction k with
  | nil => intro s _ hk; exact absurd rfl hk
  | cons p k2 ih =>
    intro s h _
    cases s with
    | nil => simp [ciPref] at h
    | cons c cs =>
      simp only [ciPref, Bool.and_eq_true] at h
      cases k2 with
      | nil => exact ⟨p, c, rfl, by simp, h.1⟩
      | cons q k3 =>
        obtain ⟨a, b, ha, hb, hab⟩ := ih h.2 (by simp)
        refine ⟨a, b, ?_, ?_, hab⟩
        · rw [List.getLast?_cons_cons]
          exact ha
        · have hlen : (q :: k3).length ≤ cs.length := ciPref_length h.2
          cases hl : cs.take (q :: k3).length with
          | nil =>
            have := congrArg List.length hl
            simp only [List.length_take, List.length_nil] at this
            simp only [List.length_cons] at this hlen
            omega
          | cons x xs =>
            show ((c :: cs).take ((q :: k3).length + 1)).getLast? = some b
            rw [List.take_succ_cons, hl, List.getLast?_cons_cons, ← hl]
            exact hb

theorem tryLits_none_head {lits : List (List Char)} (hok : litsOk lits = true)
    {c : Char} (hc : isAsciiLetter c = false) (cs : List Char) :
    tryLits lits (c :: cs) = none := by
  induction lits with
  | nil => rfl
  | cons k ks ih =>
    obtain ⟨⟨κ, t, hk, hκ⟩, _, _⟩ := litsOk_mem hok (by simp : k ∈ k :: ks)
    have hpref : ciPref k (c :: cs) = false := by
      subst hk
      simp only [ciPref, ciEq_false_of_letter_nonletter hκ hc, Bool.false_and]
    simp only [tryLits, hpref, Bool.false_and, if_neg (by simp : ¬(false = true))]
    exact ih (litsOk_tail hok)

theorem tryLits_nil {lits : List (List Char)} (hok : litsOk lits = true) :
    tryLits lits [] = none := by
  induction lits with
  | nil => rfl
  | cons k ks ih =>
    obtain ⟨⟨κ, t, hk, hκ⟩, _, _⟩ := litsOk_mem hok (by simp : k ∈ k :: ks)
    have hpref : ciPref k ([] : List Char) = false := by subst hk; rfl
    simp only [tryLits, hpref, Bool.false_and, if_neg (by simp : ¬(false = true))]
    exact ih (litsOk_tail hok)

theorem tryLits_some_spec {lits : List (List Char)} {s : List Char} {n : Nat}
    (h : tryLits lits s = some n) :
    ∃ k, k ∈ lits ∧ n = k.length ∧ ciPref k s = true ∧
      boundaryB ((s.take k.length).getLast?) ((s.drop k.length).head?) = true := by
  induction lits with
  | nil => simp [tryLits] at h
  | cons k ks ih =>
    by_cases hc :
        (ciPref k s && boundaryB ((s.take k.length).getLast?) ((s.drop k.length).head?)) = true
    · simp only [tryLits, if_pos hc, Option.some.injEq] at h
      simp only [Bool.and_eq_true] at hc
      exact ⟨k, by simp, h.symm, hc.1, hc.2⟩
    · simp only [tryLits, if_neg hc] at h
      obtain ⟨k2, hmem, hrest⟩ := ih h
      exact ⟨k2, by simp [hmem], hrest⟩

theorem tryLits_bounds {lits : List (List Char)} {s : List Char} {n : Nat}
    (hok : litsOk lits = true) (h : tryLits lits s = some n) :
    1 ≤ n ∧ n ≤ s.length := by
  obtain ⟨k, hmem, hn, hpref, _⟩ := tryLits_some_spec h
  obtain ⟨⟨κ, t, hk, _⟩, _, _⟩ := litsOk_mem hok hmem
  subst hn
  subst hk
  exact ⟨by simp, ciPref_length hpref⟩

theorem tryLits_bafter {lits : List (List Char)} {s : List Char} {n : Nat}
    (hok : litsOk lits = true) (h : tryLits lits s = some n) :
    headIsWord (s.drop n) = false := by
  obtain ⟨k, hmem, hn, hpref, hbnd⟩ := tryLits_some_spec h
  obtain ⟨⟨κ, t, hk, _⟩, ⟨a, ha, hal⟩, _⟩ := litsOk_mem hok hmem
  have hkne : k ≠ [] := by subst hk; simp
  obtain ⟨a2, b, ha2, hb, hab⟩ := ciPref_last_pair hpref hkne
  rw [ha] at ha2
  have hae : a2 = a := by cases ha2; rfl
  subst hae
  have hbw : isWordChar b = true := letter_isWord (ciEq_letter hab hal)
  subst hn
  rw [headIsWord_eq]
  have hto : wordOpt ((s.take k.length).getLast?) = true := by rw [hb]; exact hbw
  simp only [boundaryB, hto, bne_iff_ne, ne_eq] at hbnd
  cases hw : wordOpt ((s.drop k.length).head?)
  · rfl
  · rw [hw] at hbnd
    exact absurd rfl hbnd

/-! ## tryHeads and tryQual dissection -/

theorem tryHeads_none_head {heads tails : List (List Char)} (hok : litsOk heads = true)
    {c : Char} (hc : isAsciiLetter c = false) (cs : List Char) :
    tryHeads heads tails (c :: cs) = none := by
  induction heads with
  | nil => rfl
  | cons hd hs ih =>
    obtain ⟨⟨κ, t, hk, hκ⟩, _, _⟩ := litsOk_mem hok (by simp : hd ∈ hd :: hs)
    have hpref : ciPref hd (c :: cs) = false := by
      subst hk
      simp only [ciPref, ciEq_false_of_letter_nonletter hκ hc, Bool.false_and]
    simp only [tryHeads, hpref, if_neg (by simp : ¬(false = true))]
    exact ih (litsOk_tail hok)

theorem tryHeads_nil {heads tails : List (List Char)} (hok : litsOk heads = true) :
    tryHeads heads tails [] = none := by
  induction heads with
  | nil => rfl
  | cons hd hs ih =>
    obtain ⟨⟨κ, t, hk, hκ⟩, _, _⟩ := litsOk_mem hok (by simp : hd ∈ hd :: hs)
    have hpref : ciPref hd ([] : List Char) = false := by subst hk; rfl
    simp only [tryHeads, hpref, if_neg (by simp : ¬(false = true))]
    exact ih (litsOk_tail hok)

theorem tryHeads_some_spec {heads tails : List (List Char)} {s : List Char} {n : Nat}
    (h : tryHeads heads tails s = some n) :
    ∃ hd, hd ∈ heads ∧ ciPref hd s = true ∧
      ((∃ c rest m, s.drop hd.length = c :: rest ∧ isRegexSpace c = true ∧
          tryLits tails rest = some m ∧ n = hd.length + 1 + m) ∨
       (∃ m, tryLits tails (s.drop hd.length) = some m ∧ n = hd.length + m)) := by
  induction heads with
  | nil => simp [tryHeads] at h
  | cons hd hs ih =>
    by_cases hp : ciPref hd s = true
    · simp only [tryHeads, if_pos hp] at h
      cases hdrop : s.drop hd.length with
      | nil =>
        rw [hdrop] at h
        simp only [] at h
        cases htl : tryLits tails ([] : List Char) with
        | none =>
          rw [htl] at h
          simp only [] at h
          obtain ⟨hd2, hmem, hrest⟩ := ih h
          exact ⟨hd2, by simp [hmem], hrest⟩
        | some m =>
          rw [htl] at h
          simp only [Option.some.injEq] at h
          exact ⟨hd, by simp, hp, Or.inr ⟨m, by rw [hdrop]; exact htl, h.symm⟩⟩
      | cons c rest =>
        rw [hdrop] at h
        simp only [] at h
        by_cases hsp : isRegexSpace c = true
        · rw [if_pos hsp] at h
          cases hmap : tryLits tails rest with
          | some m =>
            rw [hmap] at h
            simp only [Option.map_some', Option.some.injEq] at h
            exact ⟨hd, by simp, hp, Or.inl ⟨c, rest, m, hdrop, hsp, hmap, h.symm⟩⟩
          | none =>
            rw [hmap] at h
            simp only [Option.map_none'] at h
            cases htl : tryLits tails (c :: rest) with
            | some m =>
              rw [htl] at h
              simp only [Option.some.injEq] at h
              exact ⟨hd, by simp, hp, Or.inr ⟨m, by rw [hdrop]; exact htl, h.symm⟩⟩
            | none =>
              rw [htl] at h
              simp only [] at h
              obtain ⟨hd2, hmem, hrest⟩ := ih h
              exact ⟨hd2, by simp [hmem], hrest⟩
        · rw [if_neg hsp] at h
          simp only [] at h
          cases htl : tryLits tails (c :: rest) with
          | some m =>
            rw [htl] at h
            simp only [Option.some.injEq] at h
            exact ⟨hd, by simp, hp, Or.inr ⟨m, by rw [hdrop]; exact htl, h.symm⟩⟩
          | none =>
            rw [htl] at h
            simp only [] at h
            obtain ⟨hd2, hmem, hrest⟩ := ih h
            exact ⟨hd2, by simp [hmem], hrest⟩
    · simp only [tryHeads, if_neg hp] at h
      obtain ⟨hd2, hmem, hrest⟩ := ih h
      exact ⟨hd2, by simp [hmem], hrest⟩

theorem tryHeads_bounds {heads tails : List (List Char)} {s : List Char} {n : Nat}
    (hok : litsOk heads = true) (htok : litsOk tails = true)
    (h : tryHeads heads tails s = some n) :
    1 ≤ n ∧ n ≤ s.length := by
  obtain ⟨hd, hmem, hp, hcase⟩ := tryHeads_some_spec h
  obtain ⟨⟨κ, t, hk, _⟩, _, _⟩ := litsOk_mem hok hmem
  have hhd : 1 ≤ hd.length := by subst hk; simp
  have hhs : hd.length ≤ s.length := ciPref_length hp
  rcases hcase with ⟨c, rest, m, hdrop, _, htl, hn⟩ | ⟨m, htl, hn⟩
  · obtain ⟨hm1, hm2⟩ := tryLits_bounds htok htl
    have hlen : s.length - hd.length = rest.length + 1 := by
      have := congrArg List.length hdrop
      simp only [List.length_drop, List.length_cons] at this
      omega
    omega
  · obtain ⟨hm1, hm2⟩ := tryLits_bounds htok htl
    simp only [List.length_drop] at hm2
    omega

theorem tryHeads_bafter {heads tails : List (List Char)} {s : List Char} {n : Nat}
    (htok : litsOk tails = true) (h : tryHeads heads tails s = some n) :
    headIsWord (s.drop n) = false := by
  obtain ⟨hd, _, _, hcase⟩ := tryHeads_some_spec h
  rcases hcase with ⟨c, rest, m, hdrop, _, htl, hn⟩ | ⟨m, htl, hn⟩
  · have hb := tryLits_bafter htok htl
    have hrest : rest = s.drop (hd.length + 1) := by
      have : (c :: rest).drop 1 = rest := rfl
      rw [← this, ← hdrop, List.drop_drop]
    subst hn
    rw [hrest] at hb
    rw [List.drop_drop] at hb
    exact hb
  · have hb := tryLits_bafter htok htl
    rw [List.drop_drop] at hb
    subst hn
    exact hb

theorem tryQual_some_spec {body : List Char → Option Nat} {prev : Bool}
    {s : List Char} {n : Nat} (h : tryQual body prev s = some n) :
    (prev == headIsWord s) = false ∧
    ((∃ run c rest m, s.takeWhile isAsciiLetter = run ∧ run ≠ [] ∧
        s.drop run.length = c :: rest ∧ isRegexSpace c = true ∧
        body rest = some m ∧ n = run.length + 1 + m) ∨
     body s = some n) := by
  by_cases hb : (prev == headIsWord s) = true
  · simp [tryQual, hb] at h
  · have hb' : (prev == headIsWord s) = false := by
      cases hx : prev == headIsWord s
      · rfl
      · exact absurd hx hb
    refine ⟨hb', ?_⟩
    simp only [tryQual, if_neg hb] at h
    cases hrun : s.takeWhile isAsciiLetter with
    | nil =>
      rw [hrun] at h
      simp only [] at h
      exact Or.inr h
    | cons r rs =>
      rw [hrun] at h
      simp only [] at h
      cases hdrop : s.drop (r :: rs).length with
      | nil =>
        rw [hdrop] at h
        simp only [] at h
        exact Or.inr h
      | cons c rest =>
        rw [hdrop] at h
        simp only [] at h
        by_cases hsp : isRegexSpace c = true
        · rw [if_pos hsp] at h
          cases hbody : body rest with
          | some m =>
            rw [hbody] at h
            simp only [Option.map_some', Option.some.injEq] at h
            exact Or.inl ⟨r :: rs, c, rest, m, rfl, by simp, hdrop, hsp, hbody, h.symm⟩
          | none =>
            rw [hbody] at h
            simp only [Option.map_none'] at h
            exact Or.inr h
        · rw [if_neg hsp] at h
          simp only [] at h
          exact Or.inr h

theorem tryQual_none_head {body : List Char → Option Nat}
    (hbody : ∀ c cs, isAsciiLetter c = false → body (c :: cs) = none)
    {prev : Bool} {c : Char} {cs : List Char} (hc : isAsciiLetter c = false) :
    tryQual body prev (c :: cs) = none := by
  cases hb : prev == headIsWord (c :: cs) with
  | true => simp [tryQual, hb]
  | false =>
    have hrun : (c :: cs).takeWhile isAsciiLetter = [] := by
      simp [List.takeWhile_cons, hc]
    unfold tryQual
    rw [if_neg (by simp [hb]), hrun]
    simp only []
    exact hbody c cs hc

theorem tryQual_nil {body : List Char → Option Nat} (hnil : body [] = none)
    (prev : Bool) : tryQual body prev [] = none := by
  cases prev with
  | false => rfl
  | true =>
    unfold tryQual
    rw [if_neg (by simp [headIsWord])]
    simp only [List.takeWhile_nil]
    exact hnil

theorem tryQual_true_none {body : List Char → Option Nat}
    (hbody : ∀ c cs, isAsciiLetter c = false → body (c :: cs) = none)
    (hnil : body [] = none) (s : List Char) : tryQual body true s = none := by
  cases s with
  | nil => exact tryQual_nil hnil true
  | cons c cs =>
    cases hw : isWordChar c with
    | false => exact tryQual_none_head hbody (not_letter_of_not_word hw)
    | true =>
      unfold tryQual
      rw [if_pos (by simp [headIsWord, hw])]

theorem tryQual_prev_false {body : List Char → Option Nat}
    (hbody : ∀ c cs, isAsciiLetter c = false → body (c :: cs) = none)
    (hnil : body [] = none) {prev : Bool} {s : List Char} {n : Nat}
    (h : tryQual body prev s = some n) : prev = false := by
  cases prev with
  | false => rfl
  | true => rw [tryQual_true_none hbody hnil s] at h; cases h

theorem tryQual_bounds {body : List Char → Option Nat}
    (hb : ∀ t m, body t = some m → 1 ≤ m ∧ m ≤ t.length)
    {prev : Bool} {s : List Char} {n : Nat} (h : tryQual body prev s = some n) :
    1 ≤ n ∧ n ≤ s.length := by
  obtain ⟨-, hcase⟩ := tryQual_some_spec h
  rcases hcase with ⟨run, c, rest, m, hrun, hne, hdrop, -, hbody, hn⟩ | hbody
  · obtain ⟨h1, h2⟩ := hb _ _ hbody
    have hrl : run.length ≤ s.length := by
      rw [← hrun]
      exact (List.takeWhile_prefix _).length_le
    have hlen : s.length - run.length = rest.length + 1 := by
      have := congrArg List.length hdrop
      simp only [List.length_drop, List.length_cons] at this
      omega
    omega
  · exact hb _ _ hbody

theorem tryQual_bafter {body : List Char → Option Nat}
    (hba : ∀ t m, body t = some m → headIsWord (t.drop m) = false)
    {prev : Bool} {s : List Char} {n : Nat} (h : tryQual body prev s = some n) :
    headIsWord (s.drop n) = false := by
  obtain ⟨-, hcase⟩ := tryQual_some_spec h
  rcases hcase with ⟨run, c, rest, m, hrun, hne, hdrop, -, hbody, hn⟩ | hbody
  · have hbft := hba _ _ hbody
    have hrest : rest = s.drop (run.length + 1) := by
      have h1 : (c :: rest).drop 1 = rest := rfl
      rw [← h1, ← hdrop, List.drop_drop]
    subst hn
    rw [hrest, List.drop_drop] at hbft
    exact hbft
  · exact hba _ _ hbody

/-! ## None-stability: a matcher that failed on an unmatched stretch keeps
failing when the text after the stretch is replaced by the redaction literal.
The stretch `v` ends in a non-word character (the word boundary before the
replaced span), the literal starts with the non-word, non-letter bracket, and
no literal of the pattern vocabulary contains a character matching it. -/

theorem redactedLit_cons : redactedLit = '[' :: "redacted]".toList := by decide

theorem headIsWord_append {v : List Char} (hv : v ≠ []) (x : List Char) :
    headIsWord (v ++ x) = headIsWord v := by
  cases v with
  | nil => exact absurd rfl hv
  | cons c cs => rfl

theorem drop_nonempty {l : List Char} {n : Nat} (h : n < l.length) :
    ∃ c t, l.drop n = c :: t := by
  cases hd : l.drop n with
  | nil =>
    have := congrArg List.length hd
    simp only [List.length_drop, List.length_nil] at this
    omega
  | cons c t => exact ⟨c, t, rfl⟩

theorem tryLits_ns {v : List Char} (hv : v ≠ []) (hlast : lastW true v = false)
    (r u : List Char) :
    ∀ lits, litsOk lits = true → tryLits lits (v ++ r) = none →
      tryLits lits (v ++ (redactedLit ++ u)) = none := by
  intro lits
  induction lits with
  | nil => intro _ _; rfl
  | cons k ks ih =>
    intro hok hnone
    by_cases hc : (ciPref k (v ++ r) &&
        boundaryB (((v ++ r).take k.length).getLast?)
          (((v ++ r).drop k.length).head?)) = true
    · simp only [tryLits, if_pos hc] at hnone
      cases hnone
    · have hc' : (ciPref k (v ++ r) &&
          boundaryB (((v ++ r).take k.length).getLast?)
            (((v ++ r).drop k.length).head?)) = false := by
        cases hx : (ciPref k (v ++ r) &&
            boundaryB (((v ++ r).take k.length).getLast?)
              (((v ++ r).drop k.length).head?))
        · rfl
        · exact absurd hx hc
      have hrec : tryLits ks (v ++ r) = none := by
        simp only [tryLits, if_neg hc] at hnone
        exact hnone
      have hnew : (ciPref k (v ++ (redactedLit ++ u)) &&
          boundaryB (((v ++ (redactedLit ++ u)).take k.length).getLast?)
            (((v ++ (redactedLit ++ u)).drop k.length).head?)) = false := by
        rcases Nat.lt_trichotomy k.length v.length with hlt | heq | hgt
        · have hk1 : k.take v.length = k := List.take_of_length_le (Nat.le_of_lt hlt)
          have hk2 : k.drop v.length = [] := List.drop_of_length_le (Nat.le_of_lt hlt)
          have e1 : ∀ x : List Char, ciPref k (v ++ x) = ciPref k v := by
            intro x
            rw [ciPref_append, hk1, hk2]
            simp [ciPref]
          have hne : v.drop k.length ≠ [] := by
            intro hdn
            have := congrArg List.length hdn
            simp only [List.length_drop, List.length_nil] at this
            omega
          have e2 : ∀ x : List Char,
              ((v ++ x).take k.length) = v.take k.length := fun x =>
            List.take_append_of_le_length (Nat.le_of_lt hlt)
          have e3 : ∀ x : List Char,
              ((v ++ x).drop k.length).head? = (v.drop k.length).head? := by
            intro x
            rw [List.drop_append_of_le_length (Nat.le_of_lt hlt),
              List.head?_append_of_ne_nil _ hne]
          rw [e1, e2, e3]
          rw [e1, e2, e3] at hc'
          exact hc'
        · have h1 : (v ++ (redactedLit ++ u)).take k.length = v := by
            rw [heq, List.take_append_of_le_length (Nat.le_refl _), List.take_length]
          have h2 : (v ++ (redactedLit ++ u)).drop k.length = redactedLit ++ u := by
            rw [heq, List.drop_append_of_le_length (Nat.le_refl _), List.drop_length,
              List.nil_append]
          rw [h1, h2]
          have hvl : wordOpt v.getLast? = false := by
            rw [wordOpt_getLast?_eq_lastW hv true]
            exact hlast
          have hhd : wordOpt ((redactedLit ++ u).head?) = false := by
            rw [redactedLit_cons, List.cons_append]
            rfl
          have : boundaryB v.getLast? ((redactedLit ++ u).head?) = false := by
            simp only [boundaryB, hvl, hhd]
            rfl
          rw [this, Bool.and_false]
        · have hkd : k.drop v.length ≠ [] := by
            intro hdn
            have := congrArg List.length hdn
            simp only [List.length_drop, List.length_nil] at this
            omega
          obtain ⟨κ, k2, hκ⟩ : ∃ κ k2, k.drop v.length = κ :: k2 :=
            drop_nonempty (by omega)
          have hκmem : κ ∈ k := by
            have : κ ∈ k.drop v.length := by rw [hκ]; simp
            exact List.mem_of_mem_drop this
          obtain ⟨-, -, hnb⟩ := litsOk_mem hok (by simp : k ∈ k :: ks)
          have hpf : ciPref k (v ++ (redactedLit ++ u)) = false := by
            rw [ciPref_append, hκ, redactedLit_cons]
            have : ciPref (κ :: k2) ('[' :: ("redacted]".toList ++ u)) = false := by
              simp only [ciPref, hnb κ hκmem, Bool.false_and]
            rw [List.cons_append, this, Bool.and_false]
          rw [hpf, Bool.false_and]
      simp only [tryLits, hnew, if_neg (by simp : ¬(false = true))]
      exact ih (litsOk_tail hok) hrec

theorem ciPref_append_short {k v : List Char} (hle : k.length ≤ v.length)
    (x : List Char) : ciPref k (v ++ x) = ciPref k v := by
  rw [ciPref_append, List.take_of_length_le hle, List.drop_of_length_le hle]
  simp [ciPref]

theorem ciPref_bracket_false {k : List Char} (hnb : ∀ c ∈ k, ciEq c '[' = false)
    {v : List Char} (hgt : v.length < k.length) (u : List Char) :
    ciPref k (v ++ (redactedLit ++ u)) = false := by
  obtain ⟨κ, k2, hκ⟩ := drop_nonempty hgt
  have hκmem : κ ∈ k := List.mem_of_mem_drop (by rw [hκ]; simp)
  rw [ciPref_append, hκ, redactedLit_cons, List.cons_append]
  simp only [ciPref, hnb κ hκmem, Bool.false_and, Bool.and_false]

theorem tryHeads_ns (tails : List (List Char)) (htok : litsOk tails = true)
    {v : List Char} (_hv : v ≠ []) (hlast : lastW true v = false) (r u : List Char) :
    ∀ heads, litsOk heads = true → tryHeads heads tails (v ++ r) = none →
      tryHeads heads tails (v ++ (redactedLit ++ u)) = none := by
  intro heads
  induction heads with
  | nil => intro _ _; rfl
  | cons hd hs ih =>
    intro hok hnone
    by_cases hp : ciPref hd (v ++ r) = true
    · simp only [tryHeads, if_pos hp] at hnone
      have hsplit : (match (v ++ r).drop hd.length with
             | c :: rest =>
               if isRegexSpace c then (tryLits tails rest).map (fun m => hd.length + 1 + m)
               else none
             | [] => none) = none ∧ tryLits tails ((v ++ r).drop hd.length) = none ∧
             tryHeads hs tails (v ++ r) = none := by
        cases h1 : (match (v ++ r).drop hd.length with
             | c :: rest =>
               if isRegexSpace c then (tryLits tails rest).map (fun m => hd.length + 1 + m)
               else none
             | [] => none) with
        | some x => rw [h1] at hnone; simp at hnone
        | none =>
          rw [h1] at hnone
          simp only [] at hnone
          cases h2 : tryLits tails ((v ++ r).drop hd.length) with
          | some m => rw [h2] at hnone; simp at hnone
          | none =>
            rw [h2] at hnone
            simp only [] at hnone
            exact ⟨rfl, rfl, hnone⟩
      obtain ⟨hi1, hi2, hrec⟩ := hsplit
      rcases Nat.lt_or_ge v.length hd.length with hgt | hle
      · obtain ⟨-, -, hnb⟩ := litsOk_mem hok (by simp : hd ∈ hd :: hs)
        have hnp := ciPref_bracket_false hnb hgt u
        simp only [tryHeads, hnp, if_neg (by simp : ¬(false = true))]
        exact ih (litsOk_tail hok) hrec
      · have hnp : ciPref hd (v ++ (redactedLit ++ u)) = true := by
          rw [ciPref_append_short hle, ← ciPref_append_short hle r]
          exact hp
        have hdropv : ∀ x : List Char, (v ++ x).drop hd.length = v.drop hd.length ++ x :=
          fun x => List.drop_append_of_le_length hle
        have hinner2 : tryLits tails ((v ++ (redactedLit ++ u)).drop hd.length) = none := by
          rw [hdropv]
          by_cases hn : v.drop hd.length = []
          · rw [hn, List.nil_append, redactedLit_cons, List.cons_append]
            exact tryLits_none_head htok (by decide) _
          · have hlast2 : lastW true (v.drop hd.length) = false := by
              rw [lastW_drop hn true true]
              exact hlast
            have hold : tryLits tails (v.drop hd.length ++ r) = none := by
              rw [← hdropv]
              exact hi2
            exact tryLits_ns hn hlast2 r u tails htok hold
        have hinner1 : (match (v ++ (redactedLit ++ u)).drop hd.length with
             | c :: rest =>
               if isRegexSpace c then (tryLits tails rest).map (fun m => hd.length + 1 + m)
               else none
             | [] => none) = none := by
          rw [hdropv]
          cases hv1 : v.drop hd.length with
          | nil =>
            rw [List.nil_append, redactedLit_cons, List.cons_append]
            simp only []
            rw [if_neg (by decide : ¬(isRegexSpace '[' = true))]
          | cons c1 v1 =>
            rw [List.cons_append]
            simp only []
            by_cases hsp : isRegexSpace c1 = true
            · rw [if_pos hsp]
              have ho : tryLits tails (v1 ++ r) = none := by
                have h1' := hi1
                rw [hdropv r, hv1, List.cons_append] at h1'
                simp only [] at h1'
                rw [if_pos hsp] at h1'
                cases hmo : tryLits tails (v1 ++ r) with
                | none => rfl
                | some m => rw [hmo] at h1'; simp at h1'
              by_cases hn1 : v1 = []
              · subst hn1
                rw [List.nil_append, redactedLit_cons, List.cons_append,
                  tryLits_none_head htok (by decide) _]
                rfl
              · have hlast1 : lastW true v1 = false := by
                  have hv1eq : v.drop (hd.length + 1) = v1 := by
                    have h2 : (v.drop hd.length).drop 1 = v1 := by rw [hv1]; rfl
                    rw [List.drop_drop] at h2
                    exact h2
                  have hne2 : v.drop (hd.length + 1) ≠ [] := by rw [hv1eq]; exact hn1
                  rw [← hv1eq, lastW_drop hne2 true true]
                  exact hlast
                rw [tryLits_ns hn1 hlast1 r u tails htok ho]
                rfl
            · rw [if_neg hsp]
        rw [tryHeads]
        rw [if_pos hnp, hinner1]
        simp only []
        rw [hinner2]
        simp only []
        exact ih (litsOk_tail hok) hrec
    · simp only [tryHeads, if_neg hp] at hnone
      have hnp : ciPref hd (v ++ (redactedLit ++ u)) = false := by
        rcases Nat.lt_or_ge v.length hd.length with hgt | hle
        · obtain ⟨-, -, hnb⟩ := litsOk_mem hok (by simp : hd ∈ hd :: hs)
          exact ciPref_bracket_false hnb hgt u
        · rw [ciPref_append_short hle]
          cases hx : ciPref hd v with
          | false => rfl
          | true =>
            rw [← ciPref_append_short hle r] at hx
            exact absurd hx hp
      simp only [tryHeads, hnp, if_neg (by simp : ¬(false = true))]
      exact ih (litsOk_tail hok) hnone

theorem tryQual_ns {body : List Char → Option Nat}
    (hbodyBr : ∀ u2, body (redactedLit ++ u2) = none)
    (hbodyNs : ∀ v2, v2 ≠ [] → lastW true v2 = false → ∀ r2 u2,
        body (v2 ++ r2) = none → body (v2 ++ (redactedLit ++ u2)) = none)
    {pg : Bool} {v : List Char} (hv : v ≠ []) (hlast : lastW true v = false)
    (r u : List Char) (hnone : tryQual body pg (v ++ r) = none) :
    tryQual body pg (v ++ (redactedLit ++ u)) = none := by
  by_cases hbnd : (pg == headIsWord (v ++ r)) = true
  · have hbn : (pg == headIsWord (v ++ (redactedLit ++ u))) = true := by
      rw [headIsWord_append hv]
      rw [headIsWord_append hv] at hbnd
      exact hbnd
    unfold tryQual
    rw [if_pos hbn]
  · have hbn : ¬((pg == headIsWord (v ++ (redactedLit ++ u))) = true) := by
      rw [headIsWord_append hv]
      rw [headIsWord_append hv] at hbnd
      exact hbnd
    have hstop : (v.takeWhile isAsciiLetter).length ≠ v.length :=
      takeWhile_letter_ne_of_lastW hv hlast
    have hrun : ∀ x : List Char,
        (v ++ x).takeWhile isAsciiLetter = v.takeWhile isAsciiLetter :=
      fun x => takeWhile_append_stop x hstop
    have hrunlt : (v.takeWhile isAsciiLetter).length < v.length :=
      Nat.lt_of_le_of_ne (List.takeWhile_prefix _).length_le hstop
    unfold tryQual at hnone
    rw [if_neg hbnd, hrun r] at hnone
    unfold tryQual
    rw [if_neg hbn, hrun]
    cases hrs : v.takeWhile isAsciiLetter with
    | nil =>
      rw [hrs] at hnone
      simp only [] at hnone
      simp only []
      exact hbodyNs v hv hlast r u hnone
    | cons q qs =>
      rw [hrs] at hnone
      simp only [] at hnone
      simp only []
      have hrlt : (q :: qs).length < v.length := by rw [← hrs]; exact hrunlt
      obtain ⟨c2, v2, hv2⟩ := drop_nonempty hrlt
      have hdold : (v ++ r).drop (q :: qs).length = c2 :: (v2 ++ r) := by
        rw [List.drop_append_of_le_length (Nat.le_of_lt hrlt), hv2, List.cons_append]
      have hdnew : (v ++ (redactedLit ++ u)).drop (q :: qs).length =
          c2 :: (v2 ++ (redactedLit ++ u)) := by
        rw [List.drop_append_of_le_length (Nat.le_of_lt hrlt), hv2, List.cons_append]
      rw [hdold] at hnone
      rw [hdnew]
      simp only [] at hnone ⊢
      by_cases hsp : isRegexSpace c2 = true
      · rw [if_pos hsp] at hnone ⊢
        have hbo : body (v2 ++ r) = none ∧ body (v ++ r) = none := by
          cases hb2 : body (v2 ++ r) with
          | some m => rw [hb2] at hnone; simp at hnone
          | none =>
            rw [hb2] at hnone
            simp only [Option.map_none'] at hnone
            exact ⟨rfl, hnone⟩
        have hbn2 : body (v2 ++ (redactedLit ++ u)) = none := by
          by_cases hn2 : v2 = []
          · subst hn2
            rw [List.nil_append]
            exact hbodyBr u
          · have hlast2 : lastW true v2 = false := by
              have hv2eq : v.drop ((q :: qs).length + 1) = v2 := by
                have h2 : (v.drop (q :: qs).length).drop 1 = v2 := by rw [hv2]; rfl
                rw [List.drop_drop] at h2
                exact h2
              have hne2 : v.drop ((q :: qs).length + 1) ≠ [] := by
                rw [hv2eq]; exact hn2
              rw [← hv2eq, lastW_drop hne2 true true]
              exact hlast
            exact hbodyNs v2 hn2 hlast2 r u hbo.1
        rw [hbn2]
        simp only [Option.map_none']
        exact hbodyNs v hv hlast r u hbo.2
      · rw [if_neg hsp] at hnone ⊢
        simp only [] at hnone ⊢
        exact hbodyNs v hv hlast r u hnone

/-! ## Matcher interface: the properties of the two redact matchers used by
the idempotence proof. -/

/-- Every literal of the list fails on first character `c` (case-insensitive). -/
def headsFail (c : Char) (lits : List (List Char)) : Bool :=
  lits.all (fun k => match k.head? with | some κ => !ciEq κ c | none => true)

theorem headsFail_mem {c : Char} {lits : List (List Char)}
    (h : headsFail c lits = true) {k : List Char} (hmem : k ∈ lits)
    {κ : Char} {t : List Char} (hk : k = κ :: t) : ciEq κ c = false := by
  simp only [headsFail, List.all_eq_true] at h
  have := h k hmem
  rw [hk] at this
  simp only [List.head?_cons, Bool.not_eq_true'] at this
  exact this

theorem tryLits_none_headFail {lits : List (List Char)} (hok : litsOk lits = true)
    {c : Char} (hfail : headsFail c lits = true) (cs : List Char) :
    tryLits lits (c :: cs) = none := by
  induction lits with
  | nil => rfl
  | cons k ks ih =>
    obtain ⟨⟨κ, t, hk, _⟩, _, _⟩ := litsOk_mem hok (by simp : k ∈ k :: ks)
    have hci : ciEq κ c = false := headsFail_mem hfail (by simp) hk
    have hpref : ciPref k (c :: cs) = false := by
      subst hk
      simp only [ciPref, hci, Bool.false_and]
    simp only [tryLits, hpref, Bool.false_and, if_neg (by simp : ¬(false = true))]
    refine ih (litsOk_tail hok) ?_
    simp only [headsFail, List.all_cons, Bool.and_eq_true, headsFail] at hfail ⊢
    exact hfail.2

theorem tryHeads_none_headFail {heads tails : List (List Char)}
    (hok : litsOk heads = true) {c : Char} (hfail : headsFail c heads = true)
    (cs : List Char) : tryHeads heads tails (c :: cs) = none := by
  induction heads with
  | nil => rfl
  | cons hd hs ih =>
    obtain ⟨⟨κ, t, hk, _⟩, _, _⟩ := litsOk_mem hok (by simp : hd ∈ hd :: hs)
    have hci : ciEq κ c = false := headsFail_mem hfail (by simp) hk
    have hpref : ciPref hd (c :: cs) = false := by
      subst hk
      simp only [ciPref, hci, Bool.false_and]
    simp only [tryHeads, hpref, if_neg (by simp : ¬(false = true))]
    refine ih (litsOk_tail hok) ?_
    simp only [headsFail, List.all_cons, Bool.and_eq_true, headsFail] at hfail ⊢
    exact hfail.2

theorem redTail_cons : "redacted]".toList = 'r' :: "edacted]".toList := by decide

theorem tryQual_rtail {body : List Char → Option Nat} (u : List Char)
    (hbody : body ("redacted]".toList ++ u) = none) :
    tryQual body false ("redacted]".toList ++ u) = none := by
  have hhw : headIsWord ("redacted]".toList ++ u) = true := by
    rw [redTail_cons, List.cons_append]
    rfl
  have hstop : (("redacted]".toList).takeWhile isAsciiLetter).length ≠
      ("redacted]".toList).length := by decide
  unfold tryQual
  rw [if_neg (by rw [hhw]; simp)]
  rw [takeWhile_append_stop u hstop]
  have hrw : ("redacted]".toList).takeWhile isAsciiLetter =
      'r' :: 'e' :: 'd' :: 'a' :: 'c' :: 't' :: 'e' :: 'd' :: [] := by decide
  rw [hrw]
  simp only []
  have hdrop : ("redacted]".toList ++ u).drop
      (('r' :: 'e' :: 'd' :: 'a' :: 'c' :: 't' :: 'e' :: 'd' :: ([] : List Char)).length) =
      ']' :: u := by
    have h1 : "redacted]".toList =
        'r' :: 'e' :: 'd' :: 'a' :: 'c' :: 't' :: 'e' :: 'd' :: ']' :: [] := by decide
    rw [h1]
    rfl
  rw [hdrop]
  simp only []
  rw [if_neg (by decide : ¬(isRegexSpace ']' = true))]
  simp only []
  exact hbody

/-- The properties of a matcher needed by the scan-level lemmas: it never
matches at a non-letter character nor right after a word character, its
matches are nonempty, bounded, end at a word boundary and start at a
non-word position, it finds nothing anywhere inside the redaction literal,
and its failure on a stretch ending in a non-word character survives the
replacement of the following text by the redaction literal. -/
structure MatcherOk (f : Bool → List Char → Option Nat) : Prop where
  not_letter : ∀ (prev : Bool) (c : Char) (cs : List Char),
    isAsciiLetter c = false → f prev (c :: cs) = none
  true_none : ∀ s, f true s = none
  nil_none : ∀ prev, f prev [] = none
  pos : ∀ prev s n, f prev s = some n → 1 ≤ n ∧ n ≤ s.length
  bafter : ∀ prev s n, f prev s = some n → headIsWord (s.drop n) = false
  prev_false : ∀ prev s n, f prev s = some n → prev = false
  rtail : ∀ u, f false ("redacted]".toList ++ u) = none
  ns : ∀ (pg : Bool) (v : List Char), v ≠ [] → lastW true v = false →
    ∀ r u, f pg (v ++ r) = none → f pg (v ++ (redactedLit ++ u)) = none

theorem piiLits_ok : litsOk piiLits = true := by decide

theorem spiiHeads_ok : litsOk spiiHeads = true := by decide

theorem spiiTails_ok : litsOk spiiTails = true := by decide

theorem piiLits_rfail : headsFail 'r' piiLits = true := by decide

theorem spiiHeads_rfail : headsFail 'r' spiiHeads = true := by decide

theorem piiTry_matcherOk : MatcherOk piiTry := by
  have hbodyHead : ∀ c cs, isAsciiLetter c = false → tryLits piiLits (c :: cs) = none :=
    fun c cs hc => tryLits_none_head piiLits_ok hc cs
  have hbodyNil : tryLits piiLits [] = none := tryLits_nil piiLits_ok
  have hbodyBr : ∀ u2, tryLits piiLits (redactedLit ++ u2) = none := by
    intro u2
    rw [redactedLit_cons, List.cons_append]
    exact tryLits_none_head piiLits_ok (by decide) _
  have hbodyNs : ∀ v2, v2 ≠ [] → lastW true v2 = false → ∀ r2 u2,
      tryLits piiLits (v2 ++ r2) = none →
      tryLits piiLits (v2 ++ (redactedLit ++ u2)) = none :=
    fun v2 h1 h2 r2 u2 hb => tryLits_ns h1 h2 r2 u2 piiLits piiLits_ok hb
  refine ⟨?_, ?_, ?_, ?_, ?_, ?_, ?_, ?_⟩
  · exact fun prev c cs hc => tryQual_none_head hbodyHead hc
  · exact fun s => tryQual_true_none hbodyHead hbodyNil s
  · exact fun prev => tryQual_nil hbodyNil prev
  · exact fun prev s n h => tryQual_bounds (fun t m hm => tryLits_bounds piiLits_ok hm) h
  · exact fun prev s n h => tryQual_bafter (fun t m hm => tryLits_bafter piiLits_ok hm) h
  · exact fun prev s n h => tryQual_prev_false hbodyHead hbodyNil h
  · intro u
    refine tryQual_rtail u ?_
    rw [redTail_cons, List.cons_append]
    exact tryLits_none_headFail piiLits_ok piiLits_rfail _
  · exact fun pg v h1 h2 r u hn => tryQual_ns hbodyBr hbodyNs h1 h2 r u hn

theorem spiiTry_matcherOk : MatcherOk spiiTry := by
  have hbodyHead : ∀ c cs, isAsciiLetter c = false →
      tryHeads spiiHeads spiiTails (c :: cs) = none :=
    fun c cs hc => tryHeads_none_head spiiHeads_ok hc cs
  have hbodyNil : tryHeads spiiHeads spiiTails [] = none := tryHeads_nil spiiHeads_ok
  have hbodyBr : ∀ u2, tryHeads spiiHeads spiiTails (redactedLit ++ u2) = none := by
    intro u2
    rw [redactedLit_cons, List.cons_append]
    exact tryHeads_none_head spiiHeads_ok (by decide) _
  have hbodyNs : ∀ v2, v2 ≠ [] → lastW true v2 = false → ∀ r2 u2,
      tryHeads spiiHeads spiiTails (v2 ++ r2) = none →
      tryHeads spiiHeads spiiTails (v2 ++ (redactedLit ++ u2)) = none :=
    fun v2 h1 h2 r2 u2 hb =>
      tryHeads_ns spiiTails spiiTails_ok h1 h2 r2 u2 spiiHeads spiiHeads_ok hb
  refine ⟨?_, ?_, ?_, ?_, ?_, ?_, ?_, ?_⟩
  · exact fun prev c cs hc => tryQual_none_head hbodyHead hc
  · exact fun s => tryQual_true_none hbodyHead hbodyNil s
  · exact fun prev => tryQual_nil hbodyNil prev
  · exact fun prev s n h =>
      tryQual_bounds (fun t m hm => tryHeads_bounds spiiHeads_ok spiiTails_ok hm) h
  · exact fun prev s n h =>
      tryQual_bafter (fun t m hm => tryHeads_bafter spiiTails_ok hm) h
  · exact fun prev s n h => tryQual_prev_false hbodyHead hbodyNil h
  · intro u
    refine tryQual_rtail u ?_
    rw [redTail_cons, List.cons_append]
    exact tryHeads_none_headFail spiiHeads_ok spiiHeads_rfail _
  · exact fun pg v h1 h2 r u hn => tryQual_ns hbodyBr hbodyNs h1 h2 r u hn

/-! ## Scan-level lemmas: cleanliness of pass outputs -/

theorem countAll_align {f : Bool → List Char → Option Nat} (hf : MatcherOk f)
    {w : List Char} (hw : headIsWord w = false) (b1 b2 : Bool) :
    countAll f b1 w = countAll f b2 w := by
  cases w with
  | nil => rfl
  | cons c cs =>
    have hcl : isAsciiLetter c = false :=
      not_letter_of_not_word (by simpa [headIsWord] using hw)
    rw [countAll_cons_none f (hf.not_letter b1 c cs hcl),
      countAll_cons_none f (hf.not_letter b2 c cs hcl)]

theorem countAll_split_zero (f : Bool → List Char → Option Nat) :
    ∀ (u : List Char) (pg : Bool) (w : List Char),
      countAll f pg (u ++ w) = 0 → countAll f (lastW pg u) w = 0 := by
  intro u
  induction u with
  | nil => intro pg w h; exact h
  | cons c u2 ih =>
    intro pg w h
    rw [List.cons_append] at h
    cases hf : f pg (c :: (u2 ++ w)) with
    | some n => rw [countAll_cons_some f hf] at h; simp at h
    | none =>
      rw [countAll_cons_none f hf] at h
      exact ih (isWordChar c) w h

theorem countAll_repl {f : Bool → List Char → Option Nat} (hf : MatcherOk f)
    (pg : Bool) (x : List Char) :
    countAll f pg (redactedLit ++ x) = countAll f false x := by
  have hexp : redactedLit ++ x =
      '[' :: 'r' :: 'e' :: 'd' :: 'a' :: 'c' :: 't' :: 'e' :: 'd' :: ']' :: x := by
    rw [(by decide : redactedLit =
      '[' :: 'r' :: 'e' :: 'd' :: 'a' :: 'c' :: 't' :: 'e' :: 'd' :: ']' :: [])]
    rfl
  rw [hexp]
  rw [countAll_cons_none f (hf.not_letter pg '[' _ (by decide)),
    (by decide : isWordChar '[' = false)]
  have hr : f false ('r' :: 'e' :: 'd' :: 'a' :: 'c' :: 't' :: 'e' :: 'd' :: ']' :: x) =
      none := by
    have h2 := hf.rtail x
    rw [(by decide : "redacted]".toList =
      'r' :: 'e' :: 'd' :: 'a' :: 'c' :: 't' :: 'e' :: 'd' :: ']' :: [])] at h2
    simp only [List.cons_append, List.nil_append] at h2
    exact h2
  rw [countAll_cons_none f hr, (by decide : isWordChar 'r' = true)]
  rw [countAll_cons_none f (hf.true_none _), (by decide : isWordChar 'e' = true)]
  rw [countAll_cons_none f (hf.true_none _), (by decide : isWordChar 'd' = true)]
  rw [countAll_cons_none f (hf.true_none _), (by decide : isWordChar 'a' = true)]
  rw [countAll_cons_none f (hf.true_none _), (by decide : isWordChar 'c' = true)]
  rw [countAll_cons_none f (hf.true_none _), (by decide : isWordChar 't' = true)]
  rw [countAll_cons_none f (hf.true_none _), (by decide : isWordChar 'e' = true)]
  rw [countAll_cons_none f (hf.true_none _), (by decide : isWordChar 'd' = true)]
  rw [countAll_cons_none f (hf.true_none _), (by decide : isWordChar ']' = false)]

theorem replaceAll_struct {f : Bool → List Char → Option Nat} (hf : MatcherOk f) :
    ∀ (s : List Char) (p : Bool),
      replaceAll f redactedLit p s = s ∨
      ∃ w t o, s = w ++ t ∧
        replaceAll f redactedLit p s = w ++ (redactedLit ++ o) ∧
        lastW p w = false := by
  intro s
  induction s with
  | nil => intro p; left; rfl
  | cons c cs ih =>
    intro p
    cases hm : f p (c :: cs) with
    | some n =>
      right
      refine ⟨[], c :: cs,
        replaceAll f redactedLit (lastW p ((c :: cs).take n)) (cs.drop (n - 1)),
        by simp, ?_, ?_⟩
      · rw [replaceAll_cons_some f redactedLit hm]
        simp
      · exact hf.prev_false p _ n hm
    | none =>
      rcases ih (isWordChar c) with h1 | ⟨w, t, o, hst, hcout, hlw⟩
      · left
        rw [replaceAll_cons_none f redactedLit hm, h1]
      · right
        refine ⟨c :: w, t, o, by rw [List.cons_append, ← hst], ?_, ?_⟩
        · rw [replaceAll_cons_none f redactedLit hm, hcout, List.cons_append]
        · show lastW (isWordChar c) w = false
          exact hlw

theorem replaceAll_of_clean (f : Bool → List Char → Option Nat) (repl : List Char) :
    ∀ (s : List Char) (prev : Bool),
      countAll f prev s = 0 → replaceAll f repl prev s = s := by
  intro s
  induction s with
  | nil => intro prev _; rfl
  | cons c cs ih =>
    intro prev h
    cases hm : f prev (c :: cs) with
    | some n => rw [countAll_cons_some f hm] at h; simp at h
    | none =>
      rw [countAll_cons_none f hm] at h
      rw [replaceAll_cons_none f repl hm, ih _ h]

theorem countAll_pass_self {f : Bool → List Char → Option Nat} (hf : MatcherOk f) :
    ∀ (N : Nat) (s : List Char), s.length ≤ N → ∀ (prevF pg : Bool),
      (pg = prevF ∨ headIsWord s = false) →
      countAll f pg (replaceAll f redactedLit prevF s) = 0 := by
  intro N
  induction N with
  | zero =>
    intro s hs prevF pg _
    have : s = [] := List.length_eq_zero.mp (Nat.le_zero.mp hs)
    subst this
    rfl
  | succ N ih =>
    intro s hs prevF pg hsy
    cases s with
    | nil => rfl
    | cons c cs =>
      simp only [List.length_cons] at hs
      cases hm : f prevF (c :: cs) with
      | some n =>
        rw [replaceAll_cons_some f redactedLit hm, countAll_repl hf pg _]
        have hn1 : 1 ≤ n := (hf.pos _ _ _ hm).1
        have hdn : (c :: cs).drop n = cs.drop (n - 1) := by
          cases n with
          | zero => omega
          | succ m => simp
        refine ih (cs.drop (n - 1)) ?_ _ false (Or.inr ?_)
        · simp only [List.length_drop]
          omega
        · have hb := hf.bafter _ _ _ hm
          rw [hdn] at hb
          exact hb
      | none =>
        rw [replaceAll_cons_none f redactedLit hm]
        have hgc : f pg (c :: cs) = none := by
          rcases hsy with he | hh
          · rw [he]; exact hm
          · exact hf.not_letter pg c cs
              (not_letter_of_not_word (by simpa [headIsWord] using hh))
        have hout : f pg (c :: replaceAll f redactedLit (isWordChar c) cs) = none := by
          rcases replaceAll_struct hf cs (isWordChar c) with h1 | ⟨w, t, o, hst, hcout, hlw⟩
          · rw [h1]; exact hgc
          · rw [hcout, ← List.cons_append]
            refine hf.ns pg (c :: w) (by simp) ?_ t o ?_
            · show lastW (isWordChar c) w = false
              exact hlw
            · rw [List.cons_append, ← hst]
              exact hgc
        rw [countAll_cons_none f hout]
        exact ih cs (by omega) (isWordChar c) (isWordChar c) (Or.inl rfl)

theorem countAll_pass_other {f g : Bool → List Char → Option Nat}
    (hf : MatcherOk f) (hg : MatcherOk g) :
    ∀ (N : Nat) (s : List Char), s.length ≤ N → ∀ (prevF pg : Bool),
      countAll g pg s = 0 →
      countAll g pg (replaceAll f redactedLit prevF s) = 0 := by
  intro N
  induction N with
  | zero =>
    intro s hs prevF pg _
    have : s = [] := List.length_eq_zero.mp (Nat.le_zero.mp hs)
    subst this
    rfl
  | succ N ih =>
    intro s hs prevF pg hclean
    cases s with
    | nil => rfl
    | cons c cs =>
      simp only [List.length_cons] at hs
      cases hm : f prevF (c :: cs) with
      | some n =>
        rw [replaceAll_cons_some f redactedLit hm, countAll_repl hg pg _]
        have hn1 : 1 ≤ n := (hf.pos _ _ _ hm).1
        have hdn : (c :: cs).drop n = cs.drop (n - 1) := by
          cases n with
          | zero => omega
          | succ m => simp
        have hsplit : countAll g (lastW pg ((c :: cs).take n)) ((c :: cs).drop n) = 0 := by
          refine countAll_split_zero g ((c :: cs).take n) pg ((c :: cs).drop n) ?_
          rw [List.take_append_drop]
          exact hclean
        have hba := hf.bafter _ _ _ hm
        rw [hdn] at hba hsplit
        have hcl2 : countAll g false (cs.drop (n - 1)) = 0 := by
          rw [countAll_align hg hba false (lastW pg ((c :: cs).take n))]
          exact hsplit
        refine ih (cs.drop (n - 1)) ?_ (lastW prevF ((c :: cs).take n)) false hcl2
        simp only [List.length_drop]
        omega
      | none =>
        have hgc : g pg (c :: cs) = none := by
          cases hgm : g pg (c :: cs) with
          | none => rfl
          | some k => rw [countAll_cons_some g hgm] at hclean; simp at hclean
        have hout : g pg (c :: replaceAll f redactedLit (isWordChar c) cs) = none := by
          rcases replaceAll_struct hf cs (isWordChar c) with h1 | ⟨w, t, o, hst, hcout, hlw⟩
          · rw [h1]; exact hgc
          · rw [hcout, ← List.cons_append]
            refine hg.ns pg (c :: w) (by simp) ?_ t o ?_
            · show lastW (isWordChar c) w = false
              exact hlw
            · rw [List.cons_append, ← hst]
              exact hgc
        rw [replaceAll_cons_none f redactedLit hm, countAll_cons_none g hout]
        refine ih cs (by omega) (isWordChar c) (isWordChar c) ?_
        rw [countAll_cons_none g hgc] at hclean
        exact hclean

/-! ## Concrete claim theorems -/

/-- C1 counterexample: on the input of the claim, `redact` does not return
the claimed output with the word My preserved — the optional one-word
qualifier of the PII regex greedily absorbs the word before SSN. -/
theorem C1_cex :
    redact "My SSN is 123-45-6789".toList ≠ "My [redacted] is 123-45-6789".toList := by
  decide

/-- C1 (amended): for the input My SSN is 123-45-6789, `redact` returns
the string with the whole span My SSN (qualifier word included) replaced by
the literal, and the digit sequence untouched. -/
theorem C1_amended :
    redact "My SSN is 123-45-6789".toList = "[redacted] is 123-45-6789".toList := by
  decide

/-- C2 counterexample: on the input of the claim, `redact` does not preserve
the word Patient — the qualifier is absorbed into the SPII match. -/
theorem C2_cex :
    redact "Patient medical record attached".toList ≠
      "Patient [redacted] attached".toList := by
  decide

/-- C2 (amended): for the input Patient medical record attached, `redact`
replaces the whole span Patient medical record (qualifier word included)
with the literal and preserves the word attached. -/
theorem C2_amended :
    redact "Patient medical record attached".toList = "[redacted] attached".toList := by
  decide

/-- C3 counterexample: the document gender identity is counted as one SPII
match by the detector, yet `redact` leaves it completely unchanged (in
particular it is not replaced by the literal): the redact SPII pass lacks
the identity/orientation alternative of the detector regex. -/
theorem C3_cex :
    countSPII "gender identity".toList = 1 ∧
      redact "gender identity".toList = "gender identity".toList ∧
      redact "gender identity".toList ≠ redactedLit := by
  refine ⟨by decide, by decide, by decide⟩

/-- C3 (amended): the redact passes recognize strictly narrower vocabularies
than the detector pattern sets, and the two are not the same.  Every match
of a redact pass is a detector match of the same position and length: the
redact SPII matcher is exactly the first (medical) alternative of the
detector SPII regex, which falls back to the identity/orientation
alternative, and the redact PII matcher is exactly the first
(closed-vocabulary) alternative of the detector PII regex, which falls back
to the name-field and then the contact-field alternative.  The converse
fails: in particular the document gender identity, counted as one SPII
match by the detector, is returned unchanged by `redact` rather than
replaced with the literal, and the document first name, counted as one PII
match by the detector, is likewise returned unchanged. -/
theorem C3_amended :
    (∀ prev s n, spiiTry prev s = some n → spiiDetTry prev s = some n) ∧
    (∀ prev s n, piiTry prev s = some n → piiDetTry prev s = some n) ∧
    (∀ prev s, spiiDetTry prev s =
      match spiiTry prev s with
      | some n => some n
      | none => tryQual (tryHeads ethHeads ethTails) prev s) ∧
    (∀ prev s, piiDetTry prev s =
      match piiTry prev s with
      | some n => some n
      | none =>
        match tryQual (tryHeads nameHeads nameTails) prev s with
        | some n => some n
        | none => tryQual (tryHeads contactHeads contactTails) prev s) ∧
    countSPII "gender identity".toList = 1 ∧
    redact "gender identity".toList = "gender identity".toList ∧
    countPII "first name".toList = 1 ∧
    redact "first name".toList = "first name".toList ∧
    redact "my ssn".toList = redactedLit ∧
    redact "medical record".toList = redactedLit := by
  refine ⟨?_, ?_, fun prev s => rfl, fun prev s => rfl, by decide, by decide,
    by decide, by decide, by decide, by decide⟩
  · intro prev s n h
    have h2 : tryQual (tryHeads spiiHeads spiiTails) prev s = some n := h
    simp only [spiiDetTry, h2]
  · intro prev s n h
    have h2 : tryQual (tryLits piiLits) prev s = some n := h
    simp only [piiDetTry, h2]

/-- C3 witness: the redact SPII pass matches the whole of medical record
(length 14) and the detector SPII matcher agrees, and the redact PII pass
matches the whole of my ssn (length 6) and the detector PII matcher
agrees. -/
theorem C3_amended_witness :
    (spiiTry false "medical record".toList = some 14 ∧
      spiiDetTry false "medical record".toList = some 14) ∧
    (piiTry false "my ssn".toList = some 6 ∧
      piiDetTry false "my ssn".toList = some 6) :=
  ⟨⟨by decide, C3_amended.1 false "medical record".toList 14 (by decide)⟩,
   ⟨by decide, C3_amended.2.1 false "my ssn".toList 6 (by decide)⟩⟩

/-- C7: detokenize does not invert tokenize — on Hello world with token ***
the round trip returns *** *** instead of the original — while on a document
already consisting solely of token occurrences and non-word separators (X X
with token X) the round trip is the identity. -/
theorem C7_not_inverse :
    detokenize (tokenize "Hello world".toList "***".toList) "***".toList ≠
      "Hello world".toList ∧
    detokenize (tokenize "X X".toList "X".toList) "X".toList = "X X".toList := by
  refine ⟨by decide, by decide⟩

/-- C10: tokenize is not idempotent for the default token: a second pass
replaces the word run TOKEN inside each inserted placeholder, yielding the
double-bracket form. -/
theorem C10_tokenize_not_idempotent :
    tokenize (tokenize "Hello world".toList "[TOKEN]".toList) "[TOKEN]".toList ≠
      tokenize "Hello world".toList "[TOKEN]".toList ∧
    tokenize (tokenize "Hello world".toList "[TOKEN]".toList) "[TOKEN]".toList =
      "[[TOKEN]] [[TOKEN]]".toList := by
  refine ⟨by decide, by decide⟩

/-- C9: the mode dispatch returns no output for any unrecognized mode and
always produces an output for the three recognized modes. -/
theorem C9_mode_dispatch (mode : String) (token input : List Char) :
    (mode ≠ "tokenize" → mode ≠ "detokenize" → mode ≠ "redact" →
      applyMode mode token input = none) ∧
    (mode = "tokenize" ∨ mode = "detokenize" ∨ mode = "redact" →
      ∃ out, applyMode mode token input = some out) := by
  constructor
  · intro h1 h2 h3
    unfold applyMode
    split <;> simp_all
  · rintro (h | h | h) <;> subst h <;> exact ⟨_, rfl⟩

/-- C9 witness: the unrecognized mode shred produces no output, and the
recognized mode redact produces one. -/
theorem C9_witness :
    applyMode "shred" [] [] = none ∧ ∃ out, applyMode "redact" [] [] = some out :=
  ⟨(C9_mode_dispatch "shred" [] []).1 (by decide) (by decide) (by decide),
   (C9_mode_dispatch "redact" [] []).2 (Or.inr (Or.inr rfl))⟩

/-- C4: redact is idempotent — a second application finds nothing left to
redact: the first PII pass output contains no PII match, the SPII pass
neither destroys that property nor leaves an SPII match, and the inserted
literal [redacted] never takes part in a new match. -/
theorem C4_redact_idempotent : ∀ D : List Char, redact (redact D) = redact D := by
  intro D
  have h1 : countAll piiTry false (replaceAll piiTry redactedLit false D) = 0 :=
    countAll_pass_self piiTry_matcherOk D.length D (Nat.le_refl _) false false (Or.inl rfl)
  have h2 : countAll piiTry false (redact D) = 0 :=
    countAll_pass_other spiiTry_matcherOk piiTry_matcherOk
      (replaceAll piiTry redactedLit false D).length _ (Nat.le_refl _) false false h1
  have h3 : countAll spiiTry false (redact D) = 0 :=
    countAll_pass_self spiiTry_matcherOk
      (replaceAll piiTry redactedLit false D).length _ (Nat.le_refl _) false false
      (Or.inl rfl)
  show replaceAll spiiTry redactedLit false
      (replaceAll piiTry redactedLit false (redact D)) = redact D
  rw [replaceAll_of_clean piiTry redactedLit (redact D) false h2]
  exact replaceAll_of_clean spiiTry redactedLit (redact D) false h3

/-! ## Tokenize refinement (claim C5) -/

theorem tokenizeSpecF_fuel (T : List Char) :
    ∀ (fuel fuel' : Nat) (s : List Char),
      s.length ≤ fuel → s.length ≤ fuel' →
      tokenizeSpecF T fuel s = tokenizeSpecF T fuel' s := by
  intro fuel
  induction fuel with
  | zero =>
    intro fuel' s hs _
    have hnil : s = [] := List.length_eq_zero.mp (Nat.le_zero.mp hs)
    subst hnil
    cases fuel' <;> rfl
  | succ fuel ih =>
    intro fuel' s hs hs'
    cases s with
    | nil => cases fuel' <;> rfl
    | cons c cs =>
      cases fuel' with
      | zero => simp at hs'
      | succ fuel'' =>
        simp only [List.length_cons] at hs hs'
        simp only [tokenizeSpecF]
        have hd : (cs.dropWhile isWordChar).length ≤ cs.length :=
          (List.dropWhile_sublist _).length_le
        cases hw : isWordChar c with
        | true =>
          simp only [if_pos rfl]
          exact congrArg (T ++ ·) (ih fuel'' _ (by omega) (by omega))
        | false =>
          simp only [if_neg (by simp : ¬(false = true))]
          exact congrArg (c :: ·) (ih fuel'' _ (by omega) (by omega))

theorem tokenizeSpec_cons_word {c : Char} (hw : isWordChar c = true)
    (cs T : List Char) :
    tokenizeSpec (c :: cs) T = T ++ tokenizeSpec (cs.dropWhile isWordChar) T := by
  show tokenizeSpecF T (cs.length + 1) (c :: cs) = _
  simp only [tokenizeSpecF, hw, if_pos rfl]
  exact congrArg (T ++ ·)
    (tokenizeSpecF_fuel T cs.length (cs.dropWhile isWordChar).length _
      ((List.dropWhile_sublist _).length_le) (Nat.le_refl _))

theorem tokenizeSpec_cons_nonword {c : Char} (hw : isWordChar c = false)
    (cs T : List Char) :
    tokenizeSpec (c :: cs) T = c :: tokenizeSpec cs T := by
  show tokenizeSpecF T (cs.length + 1) (c :: cs) = _
  simp only [tokenizeSpecF, hw, if_neg (by simp : ¬(false = true))]
  rfl

theorem drop_length_takeWhile (p : Char → Bool) :
    ∀ l : List Char, l.drop (l.takeWhile p).length = l.dropWhile p := by
  intro l
  induction l with
  | nil => rfl
  | cons c cs ih =>
    cases hp : p c with
    | true => simp [List.takeWhile_cons, List.dropWhile_cons, hp, ih]
    | false => simp [List.takeWhile_cons, List.dropWhile_cons, hp]

theorem headIsWord_dropWhile : ∀ l : List Char,
    headIsWord (l.dropWhile isWordChar) = false := by
  intro l
  induction l with
  | nil => rfl
  | cons c cs ih =>
    cases hw : isWordChar c with
    | true => simp [List.dropWhile_cons, hw, ih]
    | false => simp [List.dropWhile_cons, hw, headIsWord]

theorem wordRunTry_some {c : Char} (hw : isWordChar c = true) (cs : List Char) :
    wordRunTry false (c :: cs) = some (1 + (cs.takeWhile isWordChar).length) := by
  simp [wordRunTry, hw]

theorem wordRunTry_none_nonword {c : Char} (hw : isWordChar c = false)
    (prev : Bool) (cs : List Char) : wordRunTry prev (c :: cs) = none := by
  simp [wordRunTry, hw]

theorem wordRunTry_none_prev (c : Char) (cs : List Char) :
    wordRunTry true (c :: cs) = none := by
  simp [wordRunTry]

theorem tokenize_eq_spec_aux (T : List Char) :
    ∀ (N : Nat) (s : List Char), s.length ≤ N → ∀ prev : Bool,
      (prev = false ∨ headIsWord s = false) →
      replaceAll wordRunTry T prev s = tokenizeSpec s T := by
  intro N
  induction N with
  | zero =>
    intro s hs prev _
    have hnil : s = [] := List.length_eq_zero.mp (Nat.le_zero.mp hs)
    subst hnil
    rfl
  | succ N ih =>
    intro s hs prev hsy
    cases s with
    | nil => rfl
    | cons c cs =>
      simp only [List.length_cons] at hs
      cases hw : isWordChar c with
      | false =>
        rw [replaceAll_cons_none wordRunTry T (wordRunTry_none_nonword hw prev cs),
          tokenizeSpec_cons_nonword hw]
        exact congrArg (c :: ·) (ih cs (by omega) (isWordChar c) (Or.inl hw))
      | true =>
        have hprev : prev = false := by
          rcases hsy with he | hh
          · exact he
          · rw [show headIsWord (c :: cs) = isWordChar c from rfl, hw] at hh
            cases hh
        subst hprev
        rw [replaceAll_cons_some wordRunTry T (wordRunTry_some hw cs),
          tokenizeSpec_cons_word hw]
        refine congrArg (T ++ ·) ?_
        have hdrop : cs.drop (1 + (cs.takeWhile isWordChar).length - 1) =
            cs.dropWhile isWordChar := by
          rw [show 1 + (cs.takeWhile isWordChar).length - 1 =
            (cs.takeWhile isWordChar).length from by omega]
          exact drop_length_takeWhile isWordChar cs
        rw [hdrop]
        refine ih (cs.dropWhile isWordChar) ?_ _ (Or.inr (headIsWord_dropWhile cs))
        have := (List.dropWhile_sublist (l := cs) (p := isWordChar)).length_le
        omega

theorem filter_nonword_dropWhile : ∀ l : List Char,
    l.filter (fun c => !isWordChar c) =
      (l.dropWhile isWordChar).filter (fun c => !isWordChar c) := by
  intro l
  induction l with
  | nil => rfl
  | cons c cs ih =>
    cases hw : isWordChar c with
    | true => simp [List.dropWhile_cons, List.filter_cons, hw, ih]
    | false => simp [List.dropWhile_cons, List.filter_cons, hw]

theorem filter_nonword_sublist_spec (T : List Char) :
    ∀ (N : Nat) (s : List Char), s.length ≤ N →
      (s.filter (fun c => !isWordChar c)).Sublist (tokenizeSpec s T) := by
  intro N
  induction N with
  | zero =>
    intro s hs
    have hnil : s = [] := List.length_eq_zero.mp (Nat.le_zero.mp hs)
    subst hnil
    simp
  | succ N ih =>
    intro s hs
    cases s with
    | nil => simp
    | cons c cs =>
      simp only [List.length_cons] at hs
      cases hw : isWordChar c with
      | true =>
        rw [tokenizeSpec_cons_word hw]
        rw [List.filter_cons, if_neg (by simp [hw])]
        rw [filter_nonword_dropWhile cs]
        have hlen : (cs.dropWhile isWordChar).length ≤ N := by
          have := (List.dropWhile_sublist (l := cs) (p := isWordChar)).length_le
          omega
        exact (ih _ hlen).trans (List.sublist_append_right T _)
      | false =>
        rw [tokenizeSpec_cons_nonword hw]
        rw [List.filter_cons, if_pos (by simp [hw])]
        exact (ih cs (by omega)).cons₂ c

/-- C5: tokenize replaces every maximal run of word characters with the
token — the source-side scan equals the specification-side definition that
substitutes each maximal word run and keeps every other character — and the
sequence of non-word characters of the document is preserved in order in
the output. -/
theorem C5_tokenize_blanket : ∀ (D T : List Char),
    tokenize D T = tokenizeSpec D T ∧
    (D.filter (fun c => !isWordChar c)).Sublist (tokenize D T) := by
  intro D T
  have he : tokenize D T = tokenizeSpec D T :=
    tokenize_eq_spec_aux T D.length D (Nat.le_refl _) false (Or.inl rfl)
  refine ⟨he, ?_⟩
  rw [he]
  exact filter_nonword_sublist_spec T D.length D (Nat.le_refl _)

/-! ## Detokenize identity (claim C6) -/

theorem detokTry_some {T : List Char} {prev : Bool} {s : List Char} {n : Nat}
    (h : detokTry T prev s = some n) :
    T.isPrefixOf s = true ∧ n = T.length ∧ T ≠ [] := by
  cases T with
  | nil => simp [detokTry] at h
  | cons a t =>
    simp only [detokTry] at h
    by_cases hc : ((a :: t).isPrefixOf s && (prev != headIsWord s) &&
        boundaryB ((s.take (a :: t).length).getLast?)
          ((s.drop (a :: t).length).head?)) = true
    · rw [if_pos hc] at h
      simp only [Bool.and_eq_true] at hc
      simp only [Option.some.injEq] at h
      exact ⟨hc.1.1, h.symm, by simp⟩
    · rw [if_neg hc] at h
      cases h

theorem detok_id_aux (T : List Char) (htrim : trimSpace T = T) :
    ∀ (N : Nat) (s : List Char), s.length ≤ N → ∀ prev : Bool,
      replaceAll (detokTry T) (trimSpace T) prev s = s := by
  intro N
  induction N with
  | zero =>
    intro s hs prev
    have hnil : s = [] := List.length_eq_zero.mp (Nat.le_zero.mp hs)
    subst hnil
    rfl
  | succ N ih =>
    intro s hs prev
    cases s with
    | nil => rfl
    | cons c cs =>
      simp only [List.length_cons] at hs
      cases hm : detokTry T prev (c :: cs) with
      | none =>
        rw [replaceAll_cons_none (detokTry T) (trimSpace T) hm]
        exact congrArg (c :: ·) (ih cs (by omega) (isWordChar c))
      | some n =>
        obtain ⟨hpf, hn, hTne⟩ := detokTry_some hm
        obtain ⟨t2, ht2⟩ : ∃ t2, T ++ t2 = c :: cs := by
          obtain ⟨t2, ht2⟩ := List.isPrefixOf_iff_prefix.mp hpf
          exact ⟨t2, ht2⟩
        have hT1 : 1 ≤ T.length := by
          cases T with
          | nil => exact absurd rfl hTne
          | cons a t => simp
        have hdrop : cs.drop (n - 1) = t2 := by
          have h1 : (c :: cs).drop n = t2 := by
            rw [hn, ← ht2]
            exact List.drop_left T t2
          rw [← h1]
          cases hn2 : n with
          | zero => omega
          | succ m => simp
        rw [replaceAll_cons_some (detokTry T) (trimSpace T) hm, htrim, hdrop]
        have hlen : t2.length ≤ N := by
          have := congrArg List.length ht2
          simp only [List.length_append, List.length_cons] at this
          omega
        have ih2 := ih t2 hlen (lastW prev (List.take n (c :: cs)))
        rw [htrim] at ih2
        rw [ih2]
        exact ht2

/-- C6 counterexample: for the token consisting of X with a leading and a
trailing space, detokenize changes the document: the boundary-delimited
occurrence of the token inside a X b is replaced by its trimmed text X,
giving aXb. -/
theorem C6_cex :
    detokenize "a X b".toList " X ".toList ≠ "a X b".toList ∧
      detokenize "a X b".toList " X ".toList = "aXb".toList := by
  refine ⟨by decide, by decide⟩

/-- C6 (amended): for every token with no leading or trailing white space —
so that the trimmed match text is the token itself — detokenize returns the
document unchanged: every boundary-delimited occurrence of the token is
replaced by the token itself.  (For a token with surrounding white space
the replacement is the trimmed token and the document can change, see the
counterexample.) -/
theorem C6_detokenize_noop : ∀ (D T : List Char), trimSpace T = T →
    detokenize D T = D := by
  intro D T htrim
  exact detok_id_aux T htrim D.length D (Nat.le_refl _) false

/-- C6 witness: the token X is trim-stable and detokenize leaves the
document a X b unchanged. -/
theorem C6_witness :
    trimSpace "X".toList = "X".toList ∧
      detokenize "a X b".toList "X".toList = "a X b".toList :=
  ⟨by decide, C6_detokenize_noop "a X b".toList "X".toList (by decide)⟩

/-! ## Frame property of the scans (claim C8) -/

theorem joinPieces_cons (x : List Char ⊕ Char) (ps : List (List Char ⊕ Char)) :
    joinPieces (x :: ps) =
      (match x with | Sum.inl l => l | Sum.inr c => [c]) ++ joinPieces ps := by
  simp [joinPieces]

theorem renderPieces_cons (repl : List Char) (x : List Char ⊕ Char)
    (ps : List (List Char ⊕ Char)) :
    renderPieces repl (x :: ps) =
      (match x with | Sum.inl _ => repl | Sum.inr c => [c]) ++ renderPieces repl ps := by
  simp [renderPieces]

theorem joinPieces_scan {f : Bool → List Char → Option Nat}
    (hpos : ∀ prev s n, f prev s = some n → 1 ≤ n) :
    ∀ (N : Nat) (s : List Char), s.length ≤ N → ∀ prev : Bool,
      joinPieces (scanPieces f prev s) = s := by
  intro N
  induction N with
  | zero =>
    intro s hs prev
    have hnil : s = [] := List.length_eq_zero.mp (Nat.le_zero.mp hs)
    subst hnil
    rfl
  | succ N ih =>
    intro s hs prev
    cases s with
    | nil => rfl
    | cons c cs =>
      simp only [List.length_cons] at hs
      cases hm : f prev (c :: cs) with
      | some n =>
        rw [scanPieces_cons_some f hm, joinPieces_cons]
        simp only []
        have hn1 : 1 ≤ n := hpos _ _ _ hm
        have hdn : (c :: cs).drop n = cs.drop (n - 1) := by
          cases n with
          | zero => omega
          | succ m => simp
        rw [ih (cs.drop (n - 1)) (by simp only [List.length_drop]; omega) _]
        rw [← hdn, List.take_append_drop]
      | none =>
        rw [scanPieces_cons_none f hm, joinPieces_cons]
        simp only []
        rw [ih cs (by omega) (isWordChar c)]
        rfl

theorem renderPieces_scan (f : Bool → List Char → Option Nat) (repl : List Char) :
    ∀ (N : Nat) (s : List Char), s.length ≤ N → ∀ prev : Bool,
      renderPieces repl (scanPieces f prev s) = replaceAll f repl prev s := by
  intro N
  induction N with
  | zero =>
    intro s hs prev
    have hnil : s = [] := List.length_eq_zero.mp (Nat.le_zero.mp hs)
    subst hnil
    rfl
  | succ N ih =>
    intro s hs prev
    cases s with
    | nil => rfl
    | cons c cs =>
      simp only [List.length_cons] at hs
      cases hm : f prev (c :: cs) with
      | some n =>
        rw [scanPieces_cons_some f hm, renderPieces_cons,
          replaceAll_cons_some f repl hm]
        simp only []
        rw [ih (cs.drop (n - 1)) (by simp only [List.length_drop]; omega) _]
      | none =>
        rw [scanPieces_cons_none f hm, renderPieces_cons,
          replaceAll_cons_none f repl hm]
        simp only []
        rw [ih cs (by omega) (isWordChar c)]
        rfl

/-- C8: redact only modifies matched spans.  Each of the two passes
decomposes its input into matched spans and passed-through characters: the
pieces concatenate back to exactly the input (so every byte outside a
matched span appears unchanged, in its original relative order), and the
output of redact is the rendering of the pieces in which each matched span
is replaced by the literal and every other character kept. -/
theorem C8_redact_frame : ∀ D : List Char,
    joinPieces (scanPieces piiTry false D) = D ∧
    joinPieces (scanPieces spiiTry false (replaceAll piiTry redactedLit false D)) =
      replaceAll piiTry redactedLit false D ∧
    redact D =
      renderPieces redactedLit
        (scanPieces spiiTry false
          (renderPieces redactedLit (scanPieces piiTry false D))) := by
  intro D
  have hpos1 : ∀ prev s n, piiTry prev s = some n → 1 ≤ n :=
    fun prev s n h => (piiTry_matcherOk.pos prev s n h).1
  have hpos2 : ∀ prev s n, spiiTry prev s = some n → 1 ≤ n :=
    fun prev s n h => (spiiTry_matcherOk.pos prev s n h).1
  refine ⟨joinPieces_scan hpos1 D.length D (Nat.le_refl _) false,
    joinPieces_scan hpos2 _ _ (Nat.le_refl _) false, ?_⟩
  rw [renderPieces_scan piiTry redactedLit D.length D (Nat.le_refl _) false]
  rw [renderPieces_scan spiiTry redactedLit _ _ (Nat.le_refl _) false]
  rfl
